import Mathlib

/-!
Shallow embedding of the libbitcoin-network handshake protocol
(`src/unnamed/part_000`, i.e. `protocol_version_31402.cpp`) and of the
`config::authority` parsing/formatting code (`src/src/config/authority.cpp`),
together with theorems settling the specification claims about them.

Machine integers of the C++ source (`uint16_t`, `uint32_t`, `uint64_t`) are
embedded as `Nat`; the only place where wrap-around is observable is the
`static_cast<uint32_t>(height)` in `version_factory`, embedded as `% 2 ^ 32`.
-/

namespace BC

/-! ## Data model: authority and network addresses (authority.cpp) -/

/-- The 16 bytes of an IPv6 address (`ip_address_type` in the source),
most significant byte first.  IPv4 addresses are stored IPv4-mapped
(`::ffff:a.b.c.d`). -/
abbrev ip_address_type := List Nat

/-- `config::authority`: a canonical peer endpoint, an IPv6 address (16 bytes)
plus a port.  `operator==` in the source compares ip bytes and port, which is
exactly structural equality here. -/
structure authority where
  ip_ : ip_address_type
  port_ : Nat
deriving Repr, DecidableEq

def authority.ip (a : authority) : ip_address_type := a.ip_

def authority.port (a : authority) : Nat := a.port_

/-- Wire `network_address_type`: timestamp, services, ip bytes, port
(embedding of the aggregate used by `authority::to_network_address`). -/
structure network_address_type where
  timestamp : Nat
  services : Nat
  ip : ip_address_type
  port : Nat
deriving Repr, DecidableEq

/-- `authority::to_network_address` (authority.cpp lines 169-179): builds the
aggregate `{ timestamp, services, ip(), port() }` with the two local
constants `services = 0` and `timestamp = 0`. -/
def authority.to_network_address (a : authority) : network_address_type :=
  { timestamp := 0, services := 0, ip := a.ip, port := a.port }

/-! ## Protocol data model (protocol_version_31402.cpp) -/

/-- Error codes (`code` in the source).  `success` is the zero code; the C++
truthiness test `if (ec)` is embedded as `ec ≠ Code.success`.  Codes the
handshake itself produces are given their own constructors; any other
(nonzero) code received from the lower layers is `other n`. -/
inductive Code where
  | success
  | channel_stopped
  | channel_timeout
  | other (n : Nat)
deriving Repr, DecidableEq

/-- Network settings consumed by the protocol.  Modelled from the spec:
`settings.hpp` is not under `src/`; the spec's configuration section lists
`protocol_minimum`, `protocol_maximum`, `services`, `self` (the authority
advertised to peers) and `user_agent` (string), which are the fields the
claims need. -/
structure settings where
  protocol_minimum : Nat
  protocol_maximum : Nat
  services : Nat
  self : authority
  user_agent : String
deriving Repr, DecidableEq

/-- `message::version` (fields as assigned by `version_factory`; the receiver
field keeps the source's spelling `address_recevier`). -/
structure version where
  value : Nat
  services : Nat
  timestamp : Nat
  address_recevier : network_address_type
  address_sender : network_address_type
  nonce : Nat
  user_agent : String
  start_height : Nat
deriving Repr, DecidableEq

/-- `version::command`, the wire command string of the version message. -/
def version.command : String := "version"

/-- `reject::reason_code` values used by the handshake. -/
inductive reason_code where
  | obsolete
deriving Repr, DecidableEq

/-- `message::reject` as aggregate-initialized in `handle_receive_version`:
`{ version::command, reject::reason_code::obsolete, "insufficient-..." }`. -/
structure reject where
  message : String
  code : reason_code
  reason : String
deriving Repr, DecidableEq

/-- `BC_USER_AGENT`: the compile-time user-agent constant of the libbitcoin
library (external to this repository).  Its exact text is immaterial to the
theorems below; what matters is that `version_factory` assigns this constant,
not the configured `settings.user_agent`. -/
def BC_USER_AGENT : String := "/libbitcoin:2.11.0/"

/-- `protocol_version_31402::version_factory` (part_000 lines 51-74).
`now` stands for the wall-clock read `time_stamp()`; `height` is the
blockchain height, truncated by `static_cast<uint32_t>`.  The source first
builds both addresses with `to_network_address` and then overwrites
`address_recevier.services` with `version::service::none` (0) and
`address_sender.services` with `settings.services`. -/
def version_factory (auth : authority) (s : settings) (nonce : Nat)
    (height : Nat) (now : Nat) : version :=
  { value := s.protocol_maximum
    services := s.services
    timestamp := now
    address_recevier := { auth.to_network_address with services := 0 }
    address_sender := { s.self.to_network_address with services := s.services }
    nonce := nonce
    user_agent := BC_USER_AGENT
    start_height := height % 2 ^ 32 }

/-- The state a `protocol_version_31402` instance carries for the checks in
`handle_receive_version`: the two constructor-supplied requirement fields. -/
structure protocol_version_31402 where
  minimum_version_ : Nat
  minimum_services_ : Nat
deriving Repr, DecidableEq

/-- The two-argument constructor (part_000 lines 87-95): stores the given
`minimum_version` and `minimum_services` verbatim. -/
def protocol_version_31402.ctor2 (minimum_version minimum_services : Nat) :
    protocol_version_31402 :=
  { minimum_version_ := minimum_version, minimum_services_ := minimum_services }

/-- The one-argument (default) constructor (part_000 lines 79-85): delegates
to the two-argument constructor with the configured `protocol_minimum` and
`services`. -/
def protocol_version_31402.ctor1 (s : settings) : protocol_version_31402 :=
  protocol_version_31402.ctor2 s.protocol_minimum s.services

/-- Observable effects of the two message handlers: sends on the channel,
the negotiated-version write, and `set_event` calls into the synchronizer. -/
inductive Action where
  | send_version (m : version)
  | send_reject (m : reject)
  | send_verack
  | set_negotiated_version (v : Nat)
  | set_event (ec : Code)
deriving Repr, DecidableEq

/-- `protocol_version_31402::handle_receive_version` (part_000 lines
122-220) as a pure transition: given the `stopped()` flag, the network
settings, the protocol's requirement fields, the incoming code and message,
it returns the list of emitted effects (in program order) and the C++ return
value.  `level_minimum`/`level_maximum` stand for the libbitcoin constants
`version::level::minimum` / `version::level::maximum`. -/
def protocol_version_31402.handle_receive_version
    (self : protocol_version_31402) (level_minimum level_maximum : Nat)
    (stopped : Bool) (s : settings) (ec : Code) (message : version) :
    List Action × Bool :=
  if stopped then ([], false)
  else if ec ≠ Code.success then ([Action.set_event ec], false)
  else if s.protocol_minimum < level_minimum then
    ([Action.set_event Code.channel_stopped], false)
  else if s.protocol_maximum > level_maximum then
    ([Action.set_event Code.channel_stopped], false)
  else if s.protocol_minimum > s.protocol_maximum then
    ([Action.set_event Code.channel_stopped], false)
  else if Nat.land message.services self.minimum_services_ ≠ self.minimum_services_ then
    ([Action.send_reject
        { message := version.command, code := reason_code.obsolete,
          reason := "insufficient-services" },
      Action.set_event Code.channel_stopped], false)
  else if message.value < self.minimum_version_ then
    ([Action.send_reject
        { message := version.command, code := reason_code.obsolete,
          reason := "insufficient-version" },
      Action.set_event Code.channel_stopped], false)
  else
    ([Action.set_negotiated_version (min message.value s.protocol_maximum),
      Action.send_verack,
      Action.set_event Code.success], false)

/-- `protocol_version_31402::handle_receive_verack` (part_000 lines 222-239)
as a pure transition (the verack payload carries no data). -/
def protocol_version_31402.handle_receive_verack
    (stopped : Bool) (ec : Code) : List Action × Bool :=
  if stopped then ([], false)
  else if ec ≠ Code.success then ([Action.set_event ec], false)
  else ([Action.set_event Code.success], false)

/-! ## The two-of-two synchronizer

Modelled from the spec: the `synchronize(handler, 2, NAME, false)` wrapper
used by `protocol_version_31402::start` lives outside `src/`.  The spec says
"The handshake handler is invoked once when both events have occurred
(success) or any error has occurred (failure); subsequent events are
ignored."  The state is a count of success events plus a completion flag;
each `set_event` code is fed to `synchronizer_step`, which may produce the
single handler invocation. -/

structure SynchronizerState where
  counter : Nat
  complete : Bool
deriving Repr, DecidableEq

/-- One `set_event` delivery: ignored when complete; an error completes
immediately with that error; the second success completes with success. -/
def synchronizer_step (st : SynchronizerState) (ec : Code) :
    SynchronizerState × Option Code :=
  if st.complete then (st, none)
  else if ec ≠ Code.success then ({ st with complete := true }, some ec)
  else if 2 ≤ st.counter + 1 then
    ({ counter := st.counter + 1, complete := true }, some Code.success)
  else ({ st with counter := st.counter + 1 }, none)

/-- Feeding a whole sequence of event codes to the synchronizer, collecting
every handler invocation it makes. -/
def synchronizer_run (st : SynchronizerState) : List Code → SynchronizerState × List Code
  | [] => (st, [])
  | e :: es =>
    let p := synchronizer_step st e
    let q := synchronizer_run p.1 es
    (q.1, (match p.2 with | some c => [c] | none => []) ++ q.2)

/-- Fresh synchronizer state as built in `start`. -/
def synchronizer_init : SynchronizerState := { counter := 0, complete := false }

/-! ## Concrete sample values used by counterexamples and witnesses -/

/-- A sample authority: the IPv4-mapped loopback `127.0.0.1` on port 8333. -/
def auth0 : authority :=
  { ip_ := [0, 0, 0, 0, 0, 0, 0, 0, 0, 0, 255, 255, 127, 0, 0, 1], port_ := 8333 }

/-- Sample settings with valid protocol bounds for level floor 31402 and
ceiling 70013. -/
def settings0 : settings :=
  { protocol_minimum := 31402, protocol_maximum := 70012, services := 1,
    self := auth0, user_agent := "node-agent" }

/-- A throwaway network address used to populate sample version messages. -/
def na0 : network_address_type := { timestamp := 0, services := 0, ip := [], port := 0 }

/-- A sample version message with the given advertised value and services. -/
def sample_version (value services : Nat) : version :=
  { value := value, services := services, timestamp := 0,
    address_recevier := na0, address_sender := na0,
    nonce := 0, user_agent := "/peer/", start_height := 0 }

/-! ## Character classes and number rendering (authority.cpp text layer)

The textual layer of `authority.cpp` works through `boost::regex` searches,
`boost::lexical_cast`, and `boost::asio::ip::address_v6::from_string` /
`to_string` (which on the target platform are `inet_pton` / `inet_ntop`).
These are embedded below as executable functions on `List Char`. -/

/-- Whitespace skipped/stopped at by `std::istream >> std::string`. -/
def isSpaceChar (c : Char) : Bool :=
  c.toNat = 32 || (9 ≤ c.toNat && c.toNat ≤ 13)

/-- The regex class `[0-9]`. -/
def isDigitChar (c : Char) : Bool := 48 ≤ c.toNat && c.toNat ≤ 57

/-- The regex class `[0-9\.]` (host part of the v4 alternative). -/
def isHostChar (c : Char) : Bool := isDigitChar c || c.toNat = 46

/-- The regex class `[0-9a-f:\.]` (bracketed v6 content). -/
def isV6Char (c : Char) : Bool :=
  isDigitChar c || (97 ≤ c.toNat && c.toNat ≤ 102) || c.toNat = 58 || c.toNat = 46

/-- The decimal digit character for `d < 10` (as printed by iostreams). -/
def digitChar : Nat → Char
  | 0 => '0' | 1 => '1' | 2 => '2' | 3 => '3' | 4 => '4'
  | 5 => '5' | 6 => '6' | 7 => '7' | 8 => '8' | _ => '9'

/-- Fuel-driven most-significant-first decimal rendering. -/
def decimalCharsAux : Nat → Nat → List Char
  | 0, _ => []
  | fuel + 1, n =>
    if n < 10 then [digitChar n]
    else decimalCharsAux fuel (n / 10) ++ [digitChar (n % 10)]

/-- Decimal rendering of a natural number, as `operator<<` prints integers. -/
def decimalChars (n : Nat) : List Char := decimalCharsAux (n + 1) n

/-- Numeric value of a most-significant-first digit string. -/
def decimalValue (ds : List Char) : Nat :=
  ds.foldl (fun a c => 10 * a + (c.toNat - 48)) 0

/-- The lowercase hex digit character for `d < 16` (as `inet_ntop` prints). -/
def hexDigitChar : Nat → Char
  | 0 => '0' | 1 => '1' | 2 => '2' | 3 => '3' | 4 => '4'
  | 5 => '5' | 6 => '6' | 7 => '7' | 8 => '8' | 9 => '9'
  | 10 => 'a' | 11 => 'b' | 12 => 'c' | 13 => 'd' | 14 => 'e' | _ => 'f'

/-- Fuel-driven most-significant-first lowercase hex rendering. -/
def hexCharsAux : Nat → Nat → List Char
  | 0, _ => []
  | fuel + 1, n =>
    if n < 16 then [hexDigitChar n]
    else hexCharsAux fuel (n / 16) ++ [hexDigitChar (n % 16)]

/-- Lowercase hex rendering without leading zeros (`%x`). -/
def hexChars (n : Nat) : List Char := hexCharsAux (n + 1) n

/-- Splitting a character list on a separator (used to model the group
structure handled by `inet_pton` / `inet_ntop`). -/
def splitOnChar (sep : Char) : List Char → List (List Char)
  | [] => [[]]
  | c :: cs =>
    if c = sep then [] :: splitOnChar sep cs
    else
      match splitOnChar sep cs with
      | g :: gs => (c :: g) :: gs
      | [] => [[c]]

/-! ## `address_v6::from_string`: the `inet_pton(AF_INET6)` text grammar -/

/-- One hex digit (`inet_pton` accepts both cases; the regex in the source
only ever passes lowercase through). -/
def parseHexDigit (c : Char) : Option Nat :=
  if isDigitChar c then some (c.toNat - 48)
  else if 97 ≤ c.toNat ∧ c.toNat ≤ 102 then some (c.toNat - 87)
  else if 65 ≤ c.toNat ∧ c.toNat ≤ 70 then some (c.toNat - 55)
  else none

def parseHexGroupAux : List Char → Nat → Option Nat
  | [], acc => some acc
  | c :: cs, acc =>
    match parseHexDigit c with
    | some d => parseHexGroupAux cs (16 * acc + d)
    | none => none

/-- A hex group: one to four hex digits. -/
def parseHexGroup (cs : List Char) : Option Nat :=
  if cs.length = 0 ∨ 4 < cs.length then none else parseHexGroupAux cs 0

/-- One dotted-decimal octet, with `inet_pton`'s rules: decimal digits only,
no leading zero on a multi-digit part, value at most 255. -/
def parseV4Octet (cs : List Char) : Option Nat :=
  if cs.length = 0 ∨ 3 < cs.length then none
  else if cs.all isDigitChar = false then none
  else if 1 < cs.length ∧ cs.head? = some '0' then none
  else if 255 < decimalValue cs then none
  else some (decimalValue cs)

/-- A trailing embedded IPv4 part `a.b.c.d`, yielding its two 16-bit
groups. -/
def parseQuad (cs : List Char) : Option (Nat × Nat) :=
  match splitOnChar '.' cs with
  | [p1, p2, p3, p4] =>
    match parseV4Octet p1, parseV4Octet p2, parseV4Octet p3, parseV4Octet p4 with
    | some a, some b, some c, some d => some (256 * a + b, 256 * c + d)
    | _, _, _, _ => none
  | _ => none

/-- No token of the list is empty. -/
def noEmpty (ps : List (List Char)) : Bool := ps.all (fun p => !p.isEmpty)

/-- Locates the unique `::` gap in the colon-split tokens of an address that
does not start with a colon: returns the tokens before and after the gap.
An empty after-list means the address ends with `::`. -/
def splitGapAux (front : List (List Char)) :
    List (List Char) → Option (List (List Char) × List (List Char))
  | [] => none
  | p :: rest =>
    if p.isEmpty then
      if rest = [[]] then some (front.reverse, [])
      else if noEmpty rest ∧ rest ≠ [] then some (front.reverse, rest)
      else none
    else splitGapAux (p :: front) rest

/-- Classifies the colon-split tokens of an IPv6 literal: `some (ts, none)`
for a gap-free full form, `some (l, some r)` for a form with one `::` gap,
`none` for a malformed form (stray lone colon, two gaps, ...). -/
def ipv6_gap_split (ps : List (List Char)) :
    Option (List (List Char) × Option (List (List Char))) :=
  match ps with
  | [] => none
  | [] :: rest =>
    match rest with
    | [] :: rest2 =>
      if rest2 = [[]] then some ([], some [])
      else if noEmpty rest2 ∧ rest2 ≠ [] then some ([], some rest2)
      else none
    | _ => none
  | _ =>
    if noEmpty ps then some (ps, none)
    else (splitGapAux [] ps).map (fun q => (q.1, some q.2))

/-- Parses a token list in which every token must be a hex group. -/
def parseGroupTokens : List (List Char) → Option (List Nat)
  | [] => some []
  | t :: ts =>
    match parseHexGroup t, parseGroupTokens ts with
    | some g, some gs => some (g :: gs)
    | _, _ => none

/-- Parses a token list whose final token may also be an embedded IPv4 part
(contributing two groups), as `inet_pton` allows only at the very end. -/
def parseGroupTokensLast : List (List Char) → Option (List Nat)
  | [] => some []
  | [t] =>
    if '.' ∈ t then (parseQuad t).map (fun q => [q.1, q.2])
    else (parseHexGroup t).map (fun g => [g])
  | t :: ts =>
    match parseHexGroup t, parseGroupTokensLast ts with
    | some g, some gs => some (g :: gs)
    | _, _ => none

/-- 16-bit groups to the 16 network-order bytes. -/
def groupsToBytes (gs : List Nat) : List Nat :=
  gs.foldr (fun g acc => g / 256 :: g % 256 :: acc) []

/-- `address_v6::from_string` (external `inet_pton AF_INET6` semantics):
parses an IPv6 literal — full eight-group form, one `::` gap filling in
zero groups (at most seven explicit groups then), optional trailing
dotted-decimal IPv4 part — into the 16 address bytes. -/
def ipv6_from_chars (cs : List Char) : Option (List Nat) :=
  match ipv6_gap_split (splitOnChar ':' cs) with
  | none => none
  | some (tokens, none) =>
    match parseGroupTokensLast tokens with
    | some gs => if gs.length = 8 then some (groupsToBytes gs) else none
    | none => none
  | some (left, some right) =>
    match parseGroupTokens left, parseGroupTokensLast right with
    | some gl, some gr =>
      if gl.length + gr.length ≤ 7 then
        some (groupsToBytes
          (gl ++ List.replicate (8 - (gl.length + gr.length)) 0 ++ gr))
      else none
    | _, _ => none

/-! ## `address_v6::to_string`: the `inet_ntop(AF_INET6)` printer -/

/-- The 16 bytes as eight 16-bit groups (empty on a malformed byte list). -/
def bytesToGroups : List Nat → List Nat
  | [b0, b1, b2, b3, b4, b5, b6, b7, b8, b9, b10, b11, b12, b13, b14, b15] =>
    [256 * b0 + b1, 256 * b2 + b3, 256 * b4 + b5, 256 * b6 + b7,
     256 * b8 + b9, 256 * b10 + b11, 256 * b12 + b13, 256 * b14 + b15]
  | _ => []

/-- Length of the zero-group run at the head. -/
def zeroRunLen : List Nat → Nat
  | 0 :: rest => zeroRunLen rest + 1
  | _ => 0

def bestRunAux : Nat → List Nat → Nat × Nat → Nat × Nat
  | _, [], best => best
  | i, w :: rest, best =>
    let l := zeroRunLen (w :: rest)
    bestRunAux (i + 1) rest (if best.2 < l then (i, l) else best)

/-- First longest run of zero groups: `(start, length)`. -/
def bestRun (ws : List Nat) : Nat × Nat := bestRunAux 0 ws (0, 0)

def intercalateColon : List (List Char) → List Char
  | [] => []
  | [x] => x
  | x :: xs => x ++ ':' :: intercalateColon xs

/-- The dotted-decimal rendering `a.b.c.d` of the last four bytes. -/
def ipv4PartChars (a b c d : Nat) : List Char :=
  decimalChars a ++
    ('.' :: (decimalChars b ++ ('.' :: (decimalChars c ++ ('.' :: decimalChars d)))))

/-- Group printing with `::` compression of the first longest zero run of
length at least two (the general `inet_ntop` shape). -/
def generalV6Chars (gs : List Nat) : List Char :=
  let b := bestRun gs
  if b.2 < 2 then intercalateColon (gs.map hexChars)
  else
    intercalateColon ((gs.take b.1).map hexChars) ++ ':' :: ':' ::
      intercalateColon ((gs.drop (b.1 + b.2)).map hexChars)

/-- `address_v6::to_string` (external `inet_ntop AF_INET6` semantics):
IPv4-mapped addresses print as `::ffff:a.b.c.d`, IPv4-compatible addresses
with a nonzero sixth group print as `::a.b.c.d`, everything else prints as
hex groups with `::` compression of the first longest zero run. -/
def ipv6_to_chars (bs : List Nat) : List Char :=
  match bs with
  | [b0, b1, b2, b3, b4, b5, b6, b7, b8, b9, b10, b11, b12, b13, b14, b15] =>
    if b0 = 0 ∧ b1 = 0 ∧ b2 = 0 ∧ b3 = 0 ∧ b4 = 0 ∧ b5 = 0 ∧ b6 = 0 ∧ b7 = 0 ∧
       b8 = 0 ∧ b9 = 0 ∧ b10 = 255 ∧ b11 = 255 then
      ':' :: ':' :: 'f' :: 'f' :: 'f' :: 'f' :: ':' :: ipv4PartChars b12 b13 b14 b15
    else if b0 = 0 ∧ b1 = 0 ∧ b2 = 0 ∧ b3 = 0 ∧ b4 = 0 ∧ b5 = 0 ∧ b6 = 0 ∧
       b7 = 0 ∧ b8 = 0 ∧ b9 = 0 ∧ b10 = 0 ∧ b11 = 0 ∧ ¬ (b12 = 0 ∧ b13 = 0) then
      ':' :: ':' :: ipv4PartChars b12 b13 b14 b15
    else generalV6Chars (bytesToGroups bs)
  | _ => []

/-! ## The regex of `operator>>` and the parse/format functions -/

/-- The three captures of the source regex
`(([0-9\.]+)|\[([0-9a-f:\.]+)])(:([0-9]{1,10}))?` that the code reads:
`host` is capture 2 (v4 alternative), `bracket` is capture 3 (bracketed v6
alternative), `portDigits` is capture 5 (empty when the optional port group
did not participate). -/
structure AuthorityMatch where
  host : List Char
  bracket : List Char
  portDigits : List Char
deriving Repr, DecidableEq

/-- The optional `(:([0-9]{1,10}))?` suffix at the current position: a colon
followed by at least one digit yields up to ten digits (greedy), anything
else leaves capture 5 empty. -/
def regexPortAt (cs : List Char) : List Char :=
  match cs with
  | ':' :: rest => (rest.takeWhile isDigitChar).take 10
  | _ => []

/-- Whether the regex matches at the current position, and its captures:
alternative 1 fires on a leading `[0-9\.]` character (greedy class run),
alternative 2 on `[` followed by a nonempty `[0-9a-f:\.]` run and `]`. -/
def regexMatchAt : List Char → Option AuthorityMatch
  | [] => none
  | c :: rest =>
    if isHostChar c then
      some { host := (c :: rest).takeWhile isHostChar, bracket := [],
             portDigits := regexPortAt ((c :: rest).dropWhile isHostChar) }
    else if c = '[' then
      match rest.dropWhile isV6Char with
      | ']' :: rest2 =>
        if (rest.takeWhile isV6Char).isEmpty then none
        else some { host := [], bracket := rest.takeWhile isV6Char,
                    portDigits := regexPortAt rest2 }
      | _ => none
    else none

/-- `sregex_iterator` search: the leftmost position where the regex
matches. -/
def regexSearch : List Char → Option AuthorityMatch
  | [] => none
  | c :: cs =>
    match regexMatchAt (c :: cs) with
    | some m => some m
    | none => regexSearch cs

/-- The single whitespace-delimited token read by `input >> value`. -/
def firstToken (s : List Char) : List Char :=
  (s.dropWhile isSpaceChar).takeWhile (fun c => !isSpaceChar c)

/-- `boost::lexical_cast<uint16_t>` on the port capture: fails (throws) on
an empty or non-numeric string and on values above 65535. -/
def lexical_cast_uint16 (ds : List Char) : Option Nat :=
  if ds.isEmpty then none
  else if ds.all isDigitChar = false then none
  else if decimalValue ds ≤ 65535 then some (decimalValue ds)
  else none

/-- `operator>>(std::istream&, authority&)` (authority.cpp lines 193-228):
reads one token, searches the regex in it, maps an empty capture 3 to the
IPv4-mapped text `::ffff:` + capture 2, parses the address text with
`from_string` and the port capture with `lexical_cast<uint16_t>`;
`none` models the thrown `invalid_option_value` (`InvalidAuthority`). -/
def parse_authority_chars (s : List Char) : Option authority :=
  match regexSearch (firstToken s) with
  | none => none
  | some m =>
    let ip_text :=
      if m.bracket.isEmpty
      then ':' :: ':' :: 'f' :: 'f' :: 'f' :: 'f' :: ':' :: m.host
      else m.bracket
    match ipv6_from_chars ip_text, lexical_cast_uint16 m.portDigits with
    | some ip, some p => some { ip_ := ip, port_ := p }
    | _, _ => none

/-- String-level entry point of the parser. -/
def parse_authority (s : String) : Option authority :=
  parse_authority_chars s.data

/-- The static `to_ipv4_hostname` (authority.cpp lines 89-101): a
`boost::regex` search for `::ffff:([0-9\.]+)` in the printed address,
returning the capture or the empty string. -/
def ipv4HostnameAt (cs : List Char) : Option (List Char) :=
  match cs with
  | ':' :: ':' :: 'f' :: 'f' :: 'f' :: 'f' :: ':' :: rest =>
    if (rest.takeWhile isHostChar).isEmpty then none
    else some (rest.takeWhile isHostChar)
  | _ => none

def ipv4HostnameSearch : List Char → List Char
  | [] => []
  | c :: cs =>
    match ipv4HostnameAt (c :: cs) with
    | some cap => cap
    | none => ipv4HostnameSearch cs

/-- `authority::to_hostname` (authority.cpp lines 163-167): the IPv4
hostname when the printed address embeds `::ffff:`, else the bracketed IPv6
hostname `[...]` (static `to_ipv6_hostname`). -/
def authority.to_hostname_chars (a : authority) : List Char :=
  let v4 := ipv4HostnameSearch (ipv6_to_chars a.ip_)
  if v4.isEmpty then '[' :: (ipv6_to_chars a.ip_ ++ [']']) else v4

/-- The static `to_hostname` helper (authority.cpp lines 45-53): brackets a
host that contains a colon and no bracket yet. -/
def to_hostname_static (host : List Char) : List Char :=
  if ':' ∉ host ∨ '[' ∈ host then host
  else '[' :: (host ++ [']'])

/-- The static `to_authority` helper (authority.cpp lines 56-64): appends
`:port` only for a nonzero port. -/
def to_authority_chars (host : List Char) (port : Nat) : List Char :=
  to_hostname_static host ++ (if 0 < port then ':' :: decimalChars port else [])

/-- `operator<<` / `authority::to_string` (authority.cpp lines 181-186 and
230-234). -/
def authority.to_string (a : authority) : String :=
  String.mk (to_authority_chars a.to_hostname_chars a.port_)

/-- The IPv4-mapped 16-byte address `::ffff:a.b.c.d`. -/
def mappedBytes (a b c d : Nat) : List Nat :=
  [0, 0, 0, 0, 0, 0, 0, 0, 0, 0, 255, 255, a, b, c, d]

/-! ## Claim theorems: handshake protocol -/

/-- Helper: the synchronizer emits nothing once complete. -/
theorem synchronizer_run_complete (st : SynchronizerState)
    (h : st.complete = true) (events : List Code) :
    (synchronizer_run st events).2 = [] := by
  induction events with
  | nil => rfl
  | cons e es ih =>
    simp only [synchronizer_run, synchronizer_step, h, if_true]
    exact ih

/-- Helper: the one-step unfolding of `synchronizer_run`. -/
theorem synchronizer_run_cons (st : SynchronizerState) (e : Code) (es : List Code) :
    (synchronizer_run st (e :: es)).2 =
      (match (synchronizer_step st e).2 with | some c => [c] | none => []) ++
      (synchronizer_run (synchronizer_step st e).1 es).2 := rfl

/-- Helper: full characterization of the synchronizer's invocations from a
not-yet-complete state with `c < 2` successes counted. -/
theorem synchronizer_run_char (events : List Code) :
    ∀ c : Nat, c < 2 →
    (synchronizer_run { counter := c, complete := false } events).2 =
      (if 2 ≤ c + (events.takeWhile (fun e => e == Code.success)).length
       then [Code.success]
       else match events.find? (fun e => !(e == Code.success)) with
            | some e => [e]
            | none => []) := by
  induction events with
  | nil =>
    intro c hc
    rw [if_neg (by simp only [List.takeWhile_nil, List.length_nil]; omega)]
    rfl
  | cons e es ih =>
    intro c hc
    rw [synchronizer_run_cons]
    by_cases he : e = Code.success
    · subst he
      have hlen : (List.takeWhile (fun x => x == Code.success)
            (Code.success :: es)).length =
          (List.takeWhile (fun x => x == Code.success) es).length + 1 := by
        simp [List.takeWhile_cons]
      have hfd : List.find? (fun x => !(x == Code.success)) (Code.success :: es) =
          List.find? (fun x => !(x == Code.success)) es := by
        rw [List.find?_cons_of_neg]
        simp
      by_cases h2 : 2 ≤ c + 1
      · have hc1 : c = 1 := by omega
        subst hc1
        have hstep : synchronizer_step { counter := 1, complete := false }
            Code.success = ({ counter := 2, complete := true }, some Code.success) := by
          decide
        rw [hstep, synchronizer_run_complete { counter := 2, complete := true } rfl]
        rw [hlen, if_pos (by omega)]
        rfl
      · have hc0 : c = 0 := by omega
        subst hc0
        have hstep : synchronizer_step { counter := 0, complete := false }
            Code.success = ({ counter := 1, complete := false }, none) := by
          decide
        rw [hstep]
        show (synchronizer_run { counter := 1, complete := false } es).2 = _
        rw [ih 1 (by omega), hlen, hfd]
        have harith : 1 + (List.takeWhile (fun x => x == Code.success) es).length =
            0 + ((List.takeWhile (fun x => x == Code.success) es).length + 1) := by
          omega
        rw [harith]
    · have hstep : synchronizer_step { counter := c, complete := false } e =
          ({ counter := c, complete := true }, some e) := by
        simp [synchronizer_step, he]
      rw [hstep, synchronizer_run_complete { counter := c, complete := true } rfl]
      have htw : List.takeWhile (fun x => x == Code.success) (e :: es) = [] := by
        simp [List.takeWhile_cons, he]
      have hfd : List.find? (fun x => !(x == Code.success)) (e :: es) = some e := by
        rw [List.find?_cons_of_pos]
        simp [he]
      rw [htw, hfd, if_neg (by simp only [List.length_nil]; omega)]
      rfl

/-- C7: for every finite sequence of handshake events (the `set_event` codes
delivered to the synchronizer built by `start` with count 2), the handshake
handler is invoked at most once; it is invoked with success exactly when two
success events (valid version, then verack) arrive before any error, and
with the first error code when an error arrives before the second success;
events after the single invocation produce no further invocation. -/
theorem C7_handler_once (events : List Code) :
    (synchronizer_run synchronizer_init events).2.length ≤ 1 ∧
    (synchronizer_run synchronizer_init events).2 =
      (if 2 ≤ (events.takeWhile (fun e => e == Code.success)).length
       then [Code.success]
       else match events.find? (fun e => !(e == Code.success)) with
            | some e => [e]
            | none => []) := by
  have h := synchronizer_run_char events 0 (by omega)
  simp only [Nat.zero_add] at h
  show (synchronizer_run { counter := 0, complete := false } events).2.length ≤ 1 ∧
    (synchronizer_run { counter := 0, complete := false } events).2 = _
  refine ⟨?_, h⟩
  rw [h]
  split
  · simp
  · split <;> simp

/-- C9: `authority::to_network_address` always returns timestamp 0 and
services 0, carrying over only the ip bytes and the port. -/
theorem C9_to_network_address_zero (a : authority) :
    (a.to_network_address).timestamp = 0 ∧
    (a.to_network_address).services = 0 ∧
    (a.to_network_address).ip = a.ip_ ∧
    (a.to_network_address).port = a.port_ :=
  ⟨rfl, rfl, rfl, rfl⟩

/-- C10: both message handlers return `false` on every execution path, and
when the protocol is already stopped they produce no effect at all (no event,
no send), so the version/verack subscriptions are one-shot. -/
theorem C10_handlers_one_shot (p : protocol_version_31402)
    (lmin lmax : Nat) (st : Bool) (s : settings) (ec : Code) (m : version) :
    (p.handle_receive_version lmin lmax st s ec m).2 = false ∧
    p.handle_receive_version lmin lmax true s ec m = ([], false) ∧
    (protocol_version_31402.handle_receive_verack st ec).2 = false ∧
    protocol_version_31402.handle_receive_verack true ec = ([], false) := by
  refine ⟨?_, rfl, ?_, rfl⟩
  · unfold protocol_version_31402.handle_receive_version
    split_ifs <;> rfl
  · unfold protocol_version_31402.handle_receive_verack
    split_ifs <;> rfl

/-- C8: if the configuration violates `protocol_minimum ≥ level::minimum` or
`protocol_maximum ≤ level::maximum` or `protocol_minimum ≤ protocol_maximum`,
then on receipt of a version message the handshake is failed with
`channel_stopped` as the only effect — independently of the peer message, so
before any services or version check and before any negotiated version is
applied. -/
theorem C8_config_validation (p : protocol_version_31402) (lmin lmax : Nat)
    (s : settings) (m : version)
    (h : s.protocol_minimum < lmin ∨ lmax < s.protocol_maximum ∨
         s.protocol_maximum < s.protocol_minimum) :
    p.handle_receive_version lmin lmax false s Code.success m =
      ([Action.set_event Code.channel_stopped], false) := by
  unfold protocol_version_31402.handle_receive_version
  rcases h with h | h | h <;> split_ifs <;> first | rfl | omega | simp_all

/-- C8 witness: a configuration whose maximum exceeds the level ceiling is
stopped with `channel_stopped`. -/
theorem C8_witness :
    (protocol_version_31402.ctor1 settings0).handle_receive_version 31402 60000 false
      settings0 Code.success (sample_version 70015 1) =
      ([Action.set_event Code.channel_stopped], false) :=
  C8_config_validation _ _ _ _ _ (Or.inr (Or.inl (by decide)))

/-- C5: under a valid configuration, insufficient services (respectively an
insufficient version) cause exactly a reject send — message `"version"`,
code `obsolete`, reason `"insufficient-services"` (respectively
`"insufficient-version"`) — followed by failing the handshake with
`channel_stopped`; in either case no negotiated version is applied. -/
theorem C5_insufficiency_rejects (p : protocol_version_31402) (lmin lmax : Nat)
    (s : settings) (m : version)
    (hcfg1 : lmin ≤ s.protocol_minimum) (hcfg2 : s.protocol_maximum ≤ lmax)
    (hcfg3 : s.protocol_minimum ≤ s.protocol_maximum) :
    (Nat.land m.services p.minimum_services_ ≠ p.minimum_services_ →
      p.handle_receive_version lmin lmax false s Code.success m =
        ([Action.send_reject
            { message := version.command, code := reason_code.obsolete,
              reason := "insufficient-services" },
          Action.set_event Code.channel_stopped], false)) ∧
    (Nat.land m.services p.minimum_services_ = p.minimum_services_ →
     m.value < p.minimum_version_ →
      p.handle_receive_version lmin lmax false s Code.success m =
        ([Action.send_reject
            { message := version.command, code := reason_code.obsolete,
              reason := "insufficient-version" },
          Action.set_event Code.channel_stopped], false)) ∧
    ((Nat.land m.services p.minimum_services_ ≠ p.minimum_services_ ∨
      m.value < p.minimum_version_) → ∀ v,
      Action.set_negotiated_version v ∉
        (p.handle_receive_version lmin lmax false s Code.success m).1) := by
  unfold protocol_version_31402.handle_receive_version
  refine ⟨fun hs => ?_, fun hs hv => ?_, fun hcase v => ?_⟩ <;>
    split_ifs <;> first | rfl | omega | simp_all

/-- C5 witness: a peer advertising services 0 against required services 1 is
rejected with reason `"insufficient-services"`, and a peer advertising
version 1000 against required version 31402 is rejected with reason
`"insufficient-version"`. -/
theorem C5_witness :
    ((protocol_version_31402.ctor1 settings0).handle_receive_version 31402 70013 false
      settings0 Code.success (sample_version 70015 0) =
      ([Action.send_reject
          { message := version.command, code := reason_code.obsolete,
            reason := "insufficient-services" },
        Action.set_event Code.channel_stopped], false)) ∧
    ((protocol_version_31402.ctor1 settings0).handle_receive_version 31402 70013 false
      settings0 Code.success (sample_version 1000 1) =
      ([Action.send_reject
          { message := version.command, code := reason_code.obsolete,
            reason := "insufficient-version" },
        Action.set_event Code.channel_stopped], false)) :=
  ⟨(C5_insufficiency_rejects _ _ _ _ _ (by decide) (by decide) (by decide)).1
      (by decide),
   (C5_insufficiency_rejects _ _ _ _ _ (by decide) (by decide) (by decide)).2.1
      (by decide) (by decide)⟩

/-- C6: under a valid configuration, a version message meeting the services
and version requirements leads to exactly: the negotiated version
`min(peer.value, protocol_maximum)` applied to the channel, a verack sent,
and the success event. -/
theorem C6_negotiated_version (p : protocol_version_31402) (lmin lmax : Nat)
    (s : settings) (m : version)
    (hcfg1 : lmin ≤ s.protocol_minimum) (hcfg2 : s.protocol_maximum ≤ lmax)
    (hcfg3 : s.protocol_minimum ≤ s.protocol_maximum)
    (hs : Nat.land m.services p.minimum_services_ = p.minimum_services_)
    (hv : p.minimum_version_ ≤ m.value) :
    p.handle_receive_version lmin lmax false s Code.success m =
      ([Action.set_negotiated_version (min m.value s.protocol_maximum),
        Action.send_verack,
        Action.set_event Code.success], false) := by
  unfold protocol_version_31402.handle_receive_version
  split_ifs <;> first | rfl | omega | simp_all

/-- C6 witness: a peer at version 70015 with services 1 negotiates
`min(70015, 70012) = 70012` and a verack is sent. -/
theorem C6_witness :
    (protocol_version_31402.ctor1 settings0).handle_receive_version 31402 70013 false
      settings0 Code.success (sample_version 70015 1) =
      ([Action.set_negotiated_version 70012, Action.send_verack,
        Action.set_event Code.success], false) := by
  have h := C6_negotiated_version (protocol_version_31402.ctor1 settings0)
    31402 70013 settings0 (sample_version 70015 1)
    (by decide) (by decide) (by decide) (by decide) (by decide)
  simpa using h

/-- C1 counterexample: with the two-argument constructor overriding
`minimum_version` down to 0, a peer advertising version 1 passes every check
and the handshake applies negotiated version 1, which lies strictly below
the configuration's `protocol_minimum = 31402`; so the claimed interval
invariant fails as stated. -/
theorem C1_counterexample :
    (protocol_version_31402.ctor2 0 0).handle_receive_version 31402 70013 false
      settings0 Code.success (sample_version 1 0) =
      ([Action.set_negotiated_version 1, Action.send_verack,
        Action.set_event Code.success], false) ∧
    ¬ settings0.protocol_minimum ≤ 1 := by decide

/-- C1 amended: with the default (one-argument) constructor the negotiated
version applied on the success path always lies in
`[protocol_minimum, protocol_maximum]` and the peer's services masked with
the required services equal the required services; with the two-argument
constructor the services property still holds for the overridden
`minimum_services`, but the lower bound weakens to
`min(minimum_version, protocol_maximum)`. -/
theorem C1_amended (lmin lmax : Nat) (s : settings) (m : version) (v : Nat) :
    (Action.set_negotiated_version v ∈
        ((protocol_version_31402.ctor1 s).handle_receive_version lmin lmax
          false s Code.success m).1 →
      s.protocol_minimum ≤ v ∧ v ≤ s.protocol_maximum ∧
      Nat.land m.services s.services = s.services) ∧
    (∀ mv ms, Action.set_negotiated_version v ∈
        ((protocol_version_31402.ctor2 mv ms).handle_receive_version lmin lmax
          false s Code.success m).1 →
      min mv s.protocol_maximum ≤ v ∧ v ≤ s.protocol_maximum ∧
      Nat.land m.services ms = ms) := by
  constructor
  · intro hmem
    unfold protocol_version_31402.handle_receive_version at hmem
    simp only [protocol_version_31402.ctor1, protocol_version_31402.ctor2] at hmem
    split_ifs at hmem <;> simp_all
  · intro mv ms hmem
    unfold protocol_version_31402.handle_receive_version at hmem
    simp only [protocol_version_31402.ctor2] at hmem
    split_ifs at hmem <;> simp_all

/-- C1 witness: a peer at version 40000 with services 1, handled with the
default constructor over `settings0`, yields a negotiated version inside
`[31402, 70012]` with the services mask satisfied. -/
theorem C1_witness :
    settings0.protocol_minimum ≤ 40000 ∧ 40000 ≤ settings0.protocol_maximum ∧
    Nat.land (sample_version 40000 1).services settings0.services =
      settings0.services :=
  (C1_amended 31402 70013 settings0 (sample_version 40000 1) 40000).1 (by decide)

/-- C2 counterexample: `version_factory` fills `user_agent` from the
compile-time `BC_USER_AGENT` constant, so with a configuration whose
`user_agent` is `"node-agent"` the produced message's user agent differs
from the configured string, refuting the claim as stated. -/
theorem C2_counterexample :
    (version_factory auth0 settings0 7 11 99).user_agent ≠
      settings0.user_agent := by decide

/-- C2 amended: for every peer authority, settings, nonce, wall-clock value
and height ≤ 2^32 − 1, the version message built by `version_factory` has
value `protocol_maximum`, services `settings.services`, the given nonce, the
height as start_height, the peer authority as receiver address with services
0 (and timestamp 0), the configured self authority as sender address with
services `settings.services`, and user agent equal to the library's
compile-time `BC_USER_AGENT` constant (not the configured string). -/
theorem C2_amended (auth : authority) (s : settings) (nonce height now : Nat)
    (h : height ≤ 2 ^ 32 - 1) :
    (version_factory auth s nonce height now).value = s.protocol_maximum ∧
    (version_factory auth s nonce height now).services = s.services ∧
    (version_factory auth s nonce height now).timestamp = now ∧
    (version_factory auth s nonce height now).nonce = nonce ∧
    (version_factory auth s nonce height now).start_height = height ∧
    (version_factory auth s nonce height now).user_agent = BC_USER_AGENT ∧
    (version_factory auth s nonce height now).address_recevier =
      { timestamp := 0, services := 0, ip := auth.ip_, port := auth.port_ } ∧
    (version_factory auth s nonce height now).address_sender =
      { timestamp := 0, services := s.services, ip := s.self.ip_,
        port := s.self.port_ } := by
  refine ⟨rfl, rfl, rfl, rfl, ?_, rfl, rfl, rfl⟩
  show height % 2 ^ 32 = height
  exact Nat.mod_eq_of_lt (by omega)

/-- C2 witness: the amended claim evaluated at `auth0`, `settings0`,
nonce 7, height 11, clock 99. -/
theorem C2_witness :
    (version_factory auth0 settings0 7 11 99).value = settings0.protocol_maximum ∧
    (version_factory auth0 settings0 7 11 99).services = settings0.services ∧
    (version_factory auth0 settings0 7 11 99).timestamp = 99 ∧
    (version_factory auth0 settings0 7 11 99).nonce = 7 ∧
    (version_factory auth0 settings0 7 11 99).start_height = 11 ∧
    (version_factory auth0 settings0 7 11 99).user_agent = BC_USER_AGENT ∧
    (version_factory auth0 settings0 7 11 99).address_recevier =
      { timestamp := 0, services := 0, ip := auth0.ip_, port := auth0.port_ } ∧
    (version_factory auth0 settings0 7 11 99).address_sender =
      { timestamp := 0, services := settings0.services, ip := settings0.self.ip_,
        port := settings0.self.port_ } :=
  C2_amended auth0 settings0 7 11 99 (by decide)

/-! ## Helper lemmas: characters and decimal rendering -/

theorem char_ne_of_toNat_ne {a b : Char} (h : a.toNat ≠ b.toNat) : a ≠ b :=
  fun he => h (he ▸ rfl)

theorem digitChar_toNat {d : Nat} (h : d < 10) : (digitChar d).toNat = 48 + d := by
  interval_cases d <;> rfl

theorem isDigitChar_digitChar (d : Nat) : isDigitChar (digitChar d) = true := by
  unfold digitChar
  split <;> decide

theorem isDigitChar_toNat {c : Char} (h : isDigitChar c = true) :
    48 ≤ c.toNat ∧ c.toNat ≤ 57 := by
  simpa [isDigitChar] using h

theorem isHostChar_of_digit {c : Char} (h : isDigitChar c = true) :
    isHostChar c = true := by
  simp [isHostChar, h]

theorem decimalCharsAux_irrel :
    ∀ f1 n, n < f1 → ∀ f2, n < f2 → decimalCharsAux f1 n = decimalCharsAux f2 n := by
  intro f1
  induction f1 with
  | zero => intro n h; omega
  | succ f ih =>
    intro n h f2 h2
    match f2, h2 with
    | f2 + 1, h2 =>
      show (if n < 10 then [digitChar n]
            else decimalCharsAux f (n / 10) ++ [digitChar (n % 10)]) =
          (if n < 10 then [digitChar n]
            else decimalCharsAux f2 (n / 10) ++ [digitChar (n % 10)])
      by_cases h10 : n < 10
      · simp [h10]
      · simp only [if_neg h10]
        rw [ih (n / 10) (by omega) f2 (by omega)]

theorem decimalChars_eq (n : Nat) :
    decimalChars n = if n < 10 then [digitChar n]
      else decimalChars (n / 10) ++ [digitChar (n % 10)] := by
  show decimalCharsAux (n + 1) n = _
  show (if n < 10 then [digitChar n]
        else decimalCharsAux n (n / 10) ++ [digitChar (n % 10)]) = _
  by_cases h10 : n < 10
  · simp [h10]
  · simp only [if_neg h10]
    rw [decimalCharsAux_irrel n (n / 10) (by omega) (n / 10 + 1) (by omega)]
    rfl

theorem decimalChars_ne_nil (n : Nat) : decimalChars n ≠ [] := by
  rw [decimalChars_eq]
  split <;> simp

theorem decimalChars_all_digit (n : Nat) :
    ∀ c ∈ decimalChars n, isDigitChar c = true := by
  induction n using Nat.strong_induction_on with
  | _ n ih =>
    rw [decimalChars_eq]
    split
    · intro c hc
      rw [List.mem_singleton] at hc
      subst hc
      exact isDigitChar_digitChar n
    · intro c hc
      rcases List.mem_append.1 hc with h | h
      · exact ih (n / 10) (by omega) c h
      · rw [List.mem_singleton] at h
        subst h
        exact isDigitChar_digitChar (n % 10)

theorem decimalValue_append_digit (l : List Char) (c : Char) :
    decimalValue (l ++ [c]) = 10 * decimalValue l + (c.toNat - 48) := by
  simp [decimalValue, List.foldl_append]

theorem decimalValue_decimalChars (n : Nat) :
    decimalValue (decimalChars n) = n := by
  induction n using Nat.strong_induction_on with
  | _ n ih =>
    rw [decimalChars_eq]
    split
    · show decimalValue [digitChar n] = n
      simp [decimalValue, digitChar_toNat (by omega : n < 10)]
    · rw [decimalValue_append_digit, ih (n / 10) (by omega),
        digitChar_toNat (by omega : n % 10 < 10)]
      omega

theorem decimalChars_length_le :
    ∀ n k, 1 ≤ k → n < 10 ^ k → (decimalChars n).length ≤ k := by
  intro n
  induction n using Nat.strong_induction_on with
  | _ n ih =>
    intro k hk hn
    rw [decimalChars_eq]
    by_cases h10 : n < 10
    · simp [h10, hk]
    · simp only [if_neg h10, List.length_append, List.length_cons, List.length_nil]
      have hk2 : 2 ≤ k := by
        by_contra hlt
        have hk1 : k = 1 := by omega
        subst hk1
        simp at hn
        omega
      obtain ⟨k', rfl⟩ : ∃ k', k = k' + 1 := ⟨k - 1, by omega⟩
      have hdiv : n / 10 < 10 ^ k' := by
        rw [Nat.div_lt_iff_lt_mul (by omega)]
        calc n < 10 ^ (k' + 1) := hn
        _ = 10 ^ k' * 10 := by rw [pow_succ]
      have := ih (n / 10) (by omega) k' (by omega) hdiv
      omega

theorem decimalChars_head_ne_zero (n : Nat) (hn : 0 < n) :
    (decimalChars n).head? ≠ some '0' := by
  induction n using Nat.strong_induction_on with
  | _ n ih =>
    rw [decimalChars_eq]
    by_cases h10 : n < 10
    · simp only [if_pos h10, List.head?_cons]
      intro h
      have h0 := Option.some.inj h
      interval_cases n <;> exact absurd h0 (by decide)
    · simp only [if_neg h10]
      rw [List.head?_append_of_ne_nil _ (decimalChars_ne_nil (n / 10))]
      exact ih (n / 10) (by omega) (by omega)

theorem not_mem_decimalChars {c : Char} (n : Nat) (h : isDigitChar c = false) :
    c ∉ decimalChars n := by
  intro hm
  rw [decimalChars_all_digit n c hm] at h
  cases h

/-! ## Helper lemmas: takeWhile / dropWhile / splitOnChar -/

theorem takeWhile_all {p : Char → Bool} {l : List Char}
    (h : ∀ c ∈ l, p c = true) : l.takeWhile p = l :=
  List.takeWhile_eq_self_iff.mpr h

theorem dropWhile_all {p : Char → Bool} {l : List Char}
    (h : ∀ c ∈ l, p c = true) : l.dropWhile p = [] := by
  induction l with
  | nil => rfl
  | cons c cs ih =>
    rw [List.dropWhile_cons, h c (by simp), ih (fun x hx => h x (by simp [hx]))]
    simp

theorem takeWhile_append_cons {p : Char → Bool} {l : List Char} {c : Char}
    (r : List Char) (hl : ∀ x ∈ l, p x = true) (hc : p c = false) :
    (l ++ c :: r).takeWhile p = l := by
  induction l with
  | nil => simp [List.takeWhile_cons, hc]
  | cons x xs ih =>
    rw [List.cons_append, List.takeWhile_cons, hl x (by simp)]
    rw [ih (fun y hy => hl y (by simp [hy]))]
    simp

theorem dropWhile_append_cons {p : Char → Bool} {l : List Char} {c : Char}
    (r : List Char) (hl : ∀ x ∈ l, p x = true) (hc : p c = false) :
    (l ++ c :: r).dropWhile p = c :: r := by
  induction l with
  | nil => simp [List.dropWhile_cons, hc]
  | cons x xs ih =>
    rw [List.cons_append, List.dropWhile_cons, hl x (by simp)]
    exact ih (fun y hy => hl y (by simp [hy]))

theorem dropWhile_all_neg {p : Char → Bool} {l : List Char}
    (h : ∀ c ∈ l, p c = false) : l.dropWhile p = l := by
  cases l with
  | nil => rfl
  | cons c cs =>
    rw [List.dropWhile_cons, h c (by simp)]
    simp

theorem splitOnChar_not_mem {sep : Char} {l : List Char} (h : sep ∉ l) :
    splitOnChar sep l = [l] := by
  induction l with
  | nil => rfl
  | cons c cs ih =>
    rw [splitOnChar, if_neg (by intro he; exact h (he ▸ List.mem_cons_self c cs)),
      ih (fun hm => h (List.mem_cons_of_mem c hm))]

theorem splitOnChar_append {sep : Char} {l : List Char} (r : List Char)
    (h : sep ∉ l) :
    splitOnChar sep (l ++ sep :: r) = l :: splitOnChar sep r := by
  induction l with
  | nil => simp [splitOnChar]
  | cons c cs ih =>
    rw [List.cons_append, splitOnChar,
      if_neg (by intro he; exact h (he ▸ List.mem_cons_self c cs)),
      ih (fun hm => h (List.mem_cons_of_mem c hm))]

/-- `splitOnChar` never returns the empty list. -/
theorem splitOnChar_ne_nil (sep : Char) (l : List Char) :
    splitOnChar sep l ≠ [] := by
  induction l with
  | nil => simp [splitOnChar]
  | cons c cs ih =>
    rw [splitOnChar]
    split
    · simp
    · split
      · simp
      · simp

/-! ## Helper lemmas: the dotted-quad rendering -/

theorem mem_ipv4PartChars {a b c d : Nat} {x : Char}
    (h : x ∈ ipv4PartChars a b c d) : isHostChar x = true := by
  unfold ipv4PartChars at h
  have hdot : isHostChar '.' = true := by decide
  rcases List.mem_append.1 h with h1 | h1
  · exact isHostChar_of_digit (decimalChars_all_digit a x h1)
  rcases List.mem_cons.1 h1 with rfl | h2
  · exact hdot
  rcases List.mem_append.1 h2 with h3 | h3
  · exact isHostChar_of_digit (decimalChars_all_digit b x h3)
  rcases List.mem_cons.1 h3 with rfl | h4
  · exact hdot
  rcases List.mem_append.1 h4 with h5 | h5
  · exact isHostChar_of_digit (decimalChars_all_digit c x h5)
  rcases List.mem_cons.1 h5 with rfl | h6
  · exact hdot
  exact isHostChar_of_digit (decimalChars_all_digit d x h6)

theorem ipv4PartChars_ne_nil (a b c d : Nat) : ipv4PartChars a b c d ≠ [] := by
  unfold ipv4PartChars
  intro h
  exact decimalChars_ne_nil a (List.append_eq_nil.1 h).1

theorem dot_mem_ipv4PartChars (a b c d : Nat) : '.' ∈ ipv4PartChars a b c d := by
  unfold ipv4PartChars
  simp

theorem not_mem_ipv4PartChars {x : Char} (a b c d : Nat)
    (h : isHostChar x = false) : x ∉ ipv4PartChars a b c d := by
  intro hm
  rw [mem_ipv4PartChars hm] at h
  cases h

theorem splitOnChar_ipv4PartChars (a b c d : Nat) :
    splitOnChar '.' (ipv4PartChars a b c d) =
      [decimalChars a, decimalChars b, decimalChars c, decimalChars d] := by
  have hnd : ∀ n : Nat, '.' ∉ decimalChars n := fun n =>
    not_mem_decimalChars n (by decide)
  unfold ipv4PartChars
  rw [splitOnChar_append _ (hnd a), splitOnChar_append _ (hnd b),
    splitOnChar_append _ (hnd c), splitOnChar_not_mem (hnd d)]

theorem parseV4Octet_decimalChars {x : Nat} (h : x ≤ 255) :
    parseV4Octet (decimalChars x) = some x := by
  have hne := decimalChars_ne_nil x
  have hlen : (decimalChars x).length ≤ 3 :=
    decimalChars_length_le x 3 (by omega) (by omega)
  have hall : (decimalChars x).all isDigitChar = true :=
    List.all_eq_true.2 (fun c hc => decimalChars_all_digit x c hc)
  unfold parseV4Octet
  rw [if_neg (by
    push_neg
    exact ⟨fun h0 => hne (List.eq_nil_of_length_eq_zero h0), by omega⟩)]
  rw [if_neg (by rw [hall]; simp)]
  rw [if_neg ?hlead]
  case hlead =>
    by_cases h10 : x < 10
    · have : (decimalChars x).length = 1 := by
        rw [decimalChars_eq, if_pos h10]
        rfl
      intro hand
      omega
    · intro hand
      exact decimalChars_head_ne_zero x (by omega) hand.2
  rw [decimalValue_decimalChars, if_neg (by omega)]

theorem parseQuad_ipv4PartChars {a b c d : Nat}
    (ha : a ≤ 255) (hb : b ≤ 255) (hc : c ≤ 255) (hd : d ≤ 255) :
    parseQuad (ipv4PartChars a b c d) = some (256 * a + b, 256 * c + d) := by
  unfold parseQuad
  rw [splitOnChar_ipv4PartChars]
  show (match parseV4Octet (decimalChars a), parseV4Octet (decimalChars b),
      parseV4Octet (decimalChars c), parseV4Octet (decimalChars d) with
    | some a, some b, some c, some d => some (256 * a + b, 256 * c + d)
    | _, _, _, _ => none) = some (256 * a + b, 256 * c + d)
  rw [parseV4Octet_decimalChars ha, parseV4Octet_decimalChars hb,
    parseV4Octet_decimalChars hc, parseV4Octet_decimalChars hd]

/-! ## Helper lemmas: `from_string` on the IPv4-mapped text -/

theorem splitOnChar_mapped_text (a b c d : Nat) :
    splitOnChar ':'
      (':' :: ':' :: 'f' :: 'f' :: 'f' :: 'f' :: ':' :: ipv4PartChars a b c d) =
      [[], [], ['f', 'f', 'f', 'f'], ipv4PartChars a b c d] := by
  have hcolon : (':' : Char) ∉ ipv4PartChars a b c d :=
    not_mem_ipv4PartChars a b c d (by decide)
  rw [splitOnChar, if_pos rfl, splitOnChar, if_pos rfl]
  rw [show ('f' :: 'f' :: 'f' :: 'f' :: ':' :: ipv4PartChars a b c d) =
      ['f', 'f', 'f', 'f'] ++ ':' :: ipv4PartChars a b c d from rfl]
  rw [splitOnChar_append _ (by decide), splitOnChar_not_mem hcolon]

theorem group_hi {x y : Nat} (hy : y ≤ 255) : (256 * x + y) / 256 = x := by
  rw [Nat.mul_add_div (by norm_num), Nat.div_eq_of_lt (by omega)]
  omega

theorem group_lo {x y : Nat} (hy : y ≤ 255) : (256 * x + y) % 256 = y := by
  rw [Nat.mul_add_mod, Nat.mod_eq_of_lt (by omega)]

theorem ipv6_from_chars_mapped {a b c d : Nat}
    (ha : a ≤ 255) (hb : b ≤ 255) (hc : c ≤ 255) (hd : d ≤ 255) :
    ipv6_from_chars
      (':' :: ':' :: 'f' :: 'f' :: 'f' :: 'f' :: ':' :: ipv4PartChars a b c d) =
      some (mappedBytes a b c d) := by
  have hqne := ipv4PartChars_ne_nil a b c d
  have hqe : (ipv4PartChars a b c d).isEmpty = false := List.isEmpty_eq_false.2 hqne
  unfold ipv6_from_chars
  rw [splitOnChar_mapped_text]
  have hgap : ipv6_gap_split [[], [], ['f', 'f', 'f', 'f'], ipv4PartChars a b c d] =
      some ([], some [['f', 'f', 'f', 'f'], ipv4PartChars a b c d]) := by
    show (if ([['f', 'f', 'f', 'f'], ipv4PartChars a b c d] :
          List (List Char)) = [[]] then some ([], some [])
      else if noEmpty [['f', 'f', 'f', 'f'], ipv4PartChars a b c d] = true ∧
          ([['f', 'f', 'f', 'f'], ipv4PartChars a b c d] : List (List Char)) ≠ []
        then some ([], some [['f', 'f', 'f', 'f'], ipv4PartChars a b c d])
      else none) = some ([], some [['f', 'f', 'f', 'f'], ipv4PartChars a b c d])
    rw [if_neg (by simp), if_pos ⟨by simp [noEmpty, hqe], by simp⟩]
  rw [hgap]
  have hlast : parseGroupTokensLast [['f', 'f', 'f', 'f'], ipv4PartChars a b c d] =
      some [65535, 256 * a + b, 256 * c + d] := by
    show (match parseHexGroup ['f', 'f', 'f', 'f'],
        parseGroupTokensLast [ipv4PartChars a b c d] with
      | some g, some gs => some (g :: gs)
      | _, _ => none) = _
    have h1 : parseHexGroup ['f', 'f', 'f', 'f'] = some 65535 := rfl
    have h2 : parseGroupTokensLast [ipv4PartChars a b c d] =
        some [256 * a + b, 256 * c + d] := by
      show (if '.' ∈ ipv4PartChars a b c d
        then (parseQuad (ipv4PartChars a b c d)).map (fun q => [q.1, q.2])
        else (parseHexGroup (ipv4PartChars a b c d)).map (fun g => [g])) = _
      rw [if_pos (dot_mem_ipv4PartChars a b c d),
        parseQuad_ipv4PartChars ha hb hc hd]
      rfl
    rw [h1, h2]
  show (match parseGroupTokens [],
      parseGroupTokensLast [['f', 'f', 'f', 'f'], ipv4PartChars a b c d] with
    | some gl, some gr =>
      if gl.length + gr.length ≤ 7 then
        some (groupsToBytes
          (gl ++ List.replicate (8 - (gl.length + gr.length)) 0 ++ gr))
      else none
    | _, _ => none) = some (mappedBytes a b c d)
  rw [hlast]
  show (if (0 : Nat) + 3 ≤ 7 then
      some (groupsToBytes ([] ++ List.replicate (8 - (0 + 3)) 0 ++
        [65535, 256 * a + b, 256 * c + d]))
    else none) = some (mappedBytes a b c d)
  rw [if_pos (by omega)]
  show some (groupsToBytes [0, 0, 0, 0, 0, 65535, 256 * a + b, 256 * c + d]) =
    some (mappedBytes a b c d)
  unfold groupsToBytes mappedBytes
  simp only [List.foldr_cons, List.foldr_nil]
  rw [group_hi hb, group_lo hb, group_hi hd, group_lo hd]

/-! ## Helper lemmas: `to_string` on IPv4-mapped addresses -/

theorem ipv6_to_chars_mapped (a b c d : Nat) :
    ipv6_to_chars (mappedBytes a b c d) =
      ':' :: ':' :: 'f' :: 'f' :: 'f' :: 'f' :: ':' :: ipv4PartChars a b c d := by
  show ipv6_to_chars [0, 0, 0, 0, 0, 0, 0, 0, 0, 0, 255, 255, a, b, c, d] = _
  simp only [ipv6_to_chars]
  rw [if_pos (by norm_num)]

theorem ipv4HostnameAt_mapped (a b c d : Nat) :
    ipv4HostnameAt
      (':' :: ':' :: 'f' :: 'f' :: 'f' :: 'f' :: ':' :: ipv4PartChars a b c d) =
      some (ipv4PartChars a b c d) := by
  have htw : (ipv4PartChars a b c d).takeWhile isHostChar = ipv4PartChars a b c d :=
    takeWhile_all (fun x hx => mem_ipv4PartChars hx)
  show (if ((ipv4PartChars a b c d).takeWhile isHostChar).isEmpty then none
    else some ((ipv4PartChars a b c d).takeWhile isHostChar)) = _
  rw [htw, if_neg (by simp [List.isEmpty_eq_false.2 (ipv4PartChars_ne_nil a b c d)])]

theorem ipv4HostnameSearch_mapped (a b c d : Nat) :
    ipv4HostnameSearch
      (':' :: ':' :: 'f' :: 'f' :: 'f' :: 'f' :: ':' :: ipv4PartChars a b c d) =
      ipv4PartChars a b c d := by
  rw [ipv4HostnameSearch, ipv4HostnameAt_mapped]

theorem to_hostname_chars_mapped (a b c d p : Nat) :
    authority.to_hostname_chars { ip_ := mappedBytes a b c d, port_ := p } =
      ipv4PartChars a b c d := by
  unfold authority.to_hostname_chars
  rw [show ({ ip_ := mappedBytes a b c d, port_ := p } : authority).ip_ =
    mappedBytes a b c d from rfl]
  rw [ipv6_to_chars_mapped, ipv4HostnameSearch_mapped]
  rw [if_neg (by simp [List.isEmpty_eq_false.2 (ipv4PartChars_ne_nil a b c d)])]

theorem to_string_mapped_data {a b c d p : Nat} (hp : 0 < p) :
    (authority.to_string { ip_ := mappedBytes a b c d, port_ := p }).data =
      ipv4PartChars a b c d ++ ':' :: decimalChars p := by
  unfold authority.to_string
  rw [to_hostname_chars_mapped]
  show (to_authority_chars (ipv4PartChars a b c d) p) = _
  unfold to_authority_chars to_hostname_static
  rw [if_pos (Or.inl (not_mem_ipv4PartChars a b c d (by decide))),
    if_pos hp]

/-! ## Helper lemmas: token reading, regex search and the port cast -/

theorem isSpaceChar_eq_false {c : Char} (h : 46 ≤ c.toNat) :
    isSpaceChar c = false := by
  simp only [isSpaceChar, Bool.or_eq_false_iff, decide_eq_false_iff_not,
    Bool.and_eq_false_iff]
  omega

theorem isHostChar_toNat {c : Char} (h : isHostChar c = true) : 46 ≤ c.toNat := by
  simp only [isHostChar, isDigitChar, Bool.or_eq_true, Bool.and_eq_true,
    decide_eq_true_eq] at h
  omega

theorem firstToken_all_nonspace {l : List Char}
    (h : ∀ c ∈ l, isSpaceChar c = false) : firstToken l = l := by
  unfold firstToken
  rw [dropWhile_all_neg h, takeWhile_all (fun c hc => by rw [h c hc]; rfl)]

theorem regexMatchAt_hostport (l r : List Char)
    (hl : ∀ c ∈ l, isHostChar c = true) (hne : l ≠ []) :
    regexMatchAt (l ++ ':' :: r) =
      some { host := l, bracket := [],
             portDigits := (r.takeWhile isDigitChar).take 10 } := by
  obtain ⟨c, l', rfl⟩ := List.exists_cons_of_ne_nil hne
  have htw : ((c :: l') ++ ':' :: r).takeWhile isHostChar = c :: l' :=
    takeWhile_append_cons r hl (by decide)
  have hdw : ((c :: l') ++ ':' :: r).dropWhile isHostChar = ':' :: r :=
    dropWhile_append_cons r hl (by decide)
  rw [List.cons_append] at htw hdw ⊢
  simp only [regexMatchAt]
  rw [if_pos (hl c (by simp)), htw, hdw]
  rfl

theorem regexMatchAt_host_only (l : List Char)
    (hl : ∀ c ∈ l, isHostChar c = true) (hne : l ≠ []) :
    regexMatchAt l = some { host := l, bracket := [], portDigits := [] } := by
  obtain ⟨c, l', rfl⟩ := List.exists_cons_of_ne_nil hne
  have htw : (c :: l').takeWhile isHostChar = c :: l' := takeWhile_all hl
  have hdw : (c :: l').dropWhile isHostChar = [] := dropWhile_all hl
  simp only [regexMatchAt]
  rw [if_pos (hl c (by simp)), htw, hdw]
  rfl

theorem regexSearch_of_matchAt {l : List Char} {m : AuthorityMatch}
    (hne : l ≠ []) (h : regexMatchAt l = some m) : regexSearch l = some m := by
  obtain ⟨c, cs, rfl⟩ := List.exists_cons_of_ne_nil hne
  rw [regexSearch, h]

theorem lexical_cast_uint16_decimalChars (p : Nat) :
    lexical_cast_uint16 (decimalChars p) =
      if p ≤ 65535 then some p else none := by
  unfold lexical_cast_uint16
  rw [if_neg (by simp [List.isEmpty_eq_false.2 (decimalChars_ne_nil p)])]
  rw [if_neg (by
    rw [List.all_eq_true.2 (decimalChars_all_digit p)]
    simp)]
  rw [decimalValue_decimalChars]

/-! ## Helper lemmas: full parse runs on dotted-quad inputs -/

theorem parse_chars_quad_port {a b c d p : Nat}
    (ha : a ≤ 255) (hb : b ≤ 255) (hc : c ≤ 255) (hd : d ≤ 255)
    (hbig : p ≤ 9999999999) :
    parse_authority_chars (ipv4PartChars a b c d ++ ':' :: decimalChars p) =
      (if p ≤ 65535 then some { ip_ := mappedBytes a b c d, port_ := p }
       else none) := by
  have hql : ∀ x ∈ ipv4PartChars a b c d, isHostChar x = true :=
    fun x hx => mem_ipv4PartChars hx
  have hns : ∀ x ∈ ipv4PartChars a b c d ++ ':' :: decimalChars p,
      isSpaceChar x = false := by
    intro x hx
    rcases List.mem_append.1 hx with h1 | h1
    · exact isSpaceChar_eq_false (isHostChar_toNat (hql x h1))
    rcases List.mem_cons.1 h1 with rfl | h2
    · decide
    · exact isSpaceChar_eq_false
        (by have := isDigitChar_toNat (decimalChars_all_digit p x h2); omega)
  have hport : ((decimalChars p).takeWhile isDigitChar).take 10 = decimalChars p := by
    rw [takeWhile_all (decimalChars_all_digit p),
      List.take_of_length_le (decimalChars_length_le p 10 (by omega) (by omega))]
  unfold parse_authority_chars
  rw [firstToken_all_nonspace hns,
    regexSearch_of_matchAt (by simp [ipv4PartChars_ne_nil a b c d])
      (regexMatchAt_hostport _ _ hql (ipv4PartChars_ne_nil a b c d)),
    hport]
  show (match ipv6_from_chars
      (':' :: ':' :: 'f' :: 'f' :: 'f' :: 'f' :: ':' :: ipv4PartChars a b c d),
      lexical_cast_uint16 (decimalChars p) with
    | some ip, some q => some (authority.mk ip q)
    | _, _ => none) = _
  rw [ipv6_from_chars_mapped ha hb hc hd, lexical_cast_uint16_decimalChars]
  by_cases hp : p ≤ 65535
  · rw [if_pos hp, if_pos hp]
  · rw [if_neg hp, if_neg hp]

theorem parse_chars_quad_noport {a b c d : Nat}
    (ha : a ≤ 255) (hb : b ≤ 255) (hc : c ≤ 255) (hd : d ≤ 255) :
    parse_authority_chars (ipv4PartChars a b c d) = none := by
  have hql : ∀ x ∈ ipv4PartChars a b c d, isHostChar x = true :=
    fun x hx => mem_ipv4PartChars hx
  have hns : ∀ x ∈ ipv4PartChars a b c d, isSpaceChar x = false :=
    fun x hx => isSpaceChar_eq_false (isHostChar_toNat (hql x hx))
  unfold parse_authority_chars
  rw [firstToken_all_nonspace hns,
    regexSearch_of_matchAt (ipv4PartChars_ne_nil a b c d)
      (regexMatchAt_host_only _ hql (ipv4PartChars_ne_nil a b c d))]
  show (match ipv6_from_chars
      (':' :: ':' :: 'f' :: 'f' :: 'f' :: 'f' :: ':' :: ipv4PartChars a b c d),
      lexical_cast_uint16 [] with
    | some ip, some q => some (authority.mk ip q)
    | _, _ => none) = none
  rw [ipv6_from_chars_mapped ha hb hc hd]
  rfl

/-! ## Helper lemmas: hex rendering (mirrors the decimal layer) -/

theorem hexDigitChar_range (d : Nat) :
    (48 ≤ (hexDigitChar d).toNat ∧ (hexDigitChar d).toNat ≤ 57) ∨
    (97 ≤ (hexDigitChar d).toNat ∧ (hexDigitChar d).toNat ≤ 102) := by
  unfold hexDigitChar
  split <;> decide

theorem parseHexDigit_hexDigitChar {d : Nat} (h : d < 16) :
    parseHexDigit (hexDigitChar d) = some d := by
  interval_cases d <;> decide

theorem hexCharsAux_irrel :
    ∀ f1 n, n < f1 → ∀ f2, n < f2 → hexCharsAux f1 n = hexCharsAux f2 n := by
  intro f1
  induction f1 with
  | zero => intro n h; omega
  | succ f ih =>
    intro n h f2 h2
    match f2, h2 with
    | f2 + 1, h2 =>
      show (if n < 16 then [hexDigitChar n]
            else hexCharsAux f (n / 16) ++ [hexDigitChar (n % 16)]) =
          (if n < 16 then [hexDigitChar n]
            else hexCharsAux f2 (n / 16) ++ [hexDigitChar (n % 16)])
      by_cases h16 : n < 16
      · simp [h16]
      · simp only [if_neg h16]
        rw [ih (n / 16) (by omega) f2 (by omega)]

theorem hexChars_eq (n : Nat) :
    hexChars n = if n < 16 then [hexDigitChar n]
      else hexChars (n / 16) ++ [hexDigitChar (n % 16)] := by
  show hexCharsAux (n + 1) n = _
  show (if n < 16 then [hexDigitChar n]
        else hexCharsAux n (n / 16) ++ [hexDigitChar (n % 16)]) = _
  by_cases h16 : n < 16
  · simp [h16]
  · simp only [if_neg h16]
    rw [hexCharsAux_irrel n (n / 16) (by omega) (n / 16 + 1) (by omega)]
    rfl

theorem hexChars_ne_nil (n : Nat) : hexChars n ≠ [] := by
  rw [hexChars_eq]
  split <;> simp

theorem hexChars_range (n : Nat) :
    ∀ c ∈ hexChars n,
      (48 ≤ c.toNat ∧ c.toNat ≤ 57) ∨ (97 ≤ c.toNat ∧ c.toNat ≤ 102) := by
  induction n using Nat.strong_induction_on with
  | _ n ih =>
    rw [hexChars_eq]
    split
    · intro c hc
      rw [List.mem_singleton] at hc
      subst hc
      exact hexDigitChar_range n
    · intro c hc
      rcases List.mem_append.1 hc with h | h
      · exact ih (n / 16) (by omega) c h
      · rw [List.mem_singleton] at h
        subst h
        exact hexDigitChar_range (n % 16)

theorem hexChars_length_le :
    ∀ n k, 1 ≤ k → n < 16 ^ k → (hexChars n).length ≤ k := by
  intro n
  induction n using Nat.strong_induction_on with
  | _ n ih =>
    intro k hk hn
    rw [hexChars_eq]
    by_cases h16 : n < 16
    · simp [h16, hk]
    · simp only [if_neg h16, List.length_append, List.length_cons, List.length_nil]
      have hk2 : 2 ≤ k := by
        by_contra hlt
        have hk1 : k = 1 := by omega
        subst hk1
        simp at hn
        omega
      obtain ⟨k', rfl⟩ : ∃ k', k = k' + 1 := ⟨k - 1, by omega⟩
      have hdiv : n / 16 < 16 ^ k' := by
        rw [Nat.div_lt_iff_lt_mul (by omega)]
        calc n < 16 ^ (k' + 1) := hn
        _ = 16 ^ k' * 16 := by rw [pow_succ]
      have := ih (n / 16) (by omega) k' (by omega) hdiv
      omega

theorem not_colon_mem_hexChars (n : Nat) : ':' ∉ hexChars n := by
  intro hm
  rcases hexChars_range n _ hm with h | h <;> simp at h

theorem not_dot_mem_hexChars (n : Nat) : '.' ∉ hexChars n := by
  intro hm
  rcases hexChars_range n _ hm with h | h <;> simp at h

theorem isV6Char_of_range {c : Char}
    (h : (48 ≤ c.toNat ∧ c.toNat ≤ 57) ∨ (97 ≤ c.toNat ∧ c.toNat ≤ 102)) :
    isV6Char c = true := by
  simp only [isV6Char, isDigitChar, Bool.or_eq_true, Bool.and_eq_true,
    decide_eq_true_eq]
  omega

theorem parseHexGroupAux_append (l : List Char) (c : Char) (acc : Nat) :
    parseHexGroupAux (l ++ [c]) acc =
      (match parseHexGroupAux l acc with
        | some v => (parseHexDigit c).map (fun d => 16 * v + d)
        | none => none) := by
  induction l generalizing acc with
  | nil =>
    show parseHexGroupAux [c] acc = _
    unfold parseHexGroupAux
    cases parseHexDigit c <;> rfl
  | cons x xs ih =>
    show parseHexGroupAux (x :: (xs ++ [c])) acc = _
    unfold parseHexGroupAux
    cases parseHexDigit x
    · rfl
    · exact ih _

theorem parseHexGroupAux_hexChars :
    ∀ n acc, parseHexGroupAux (hexChars n) acc =
      some (acc * 16 ^ (hexChars n).length + n) := by
  intro n
  induction n using Nat.strong_induction_on with
  | _ n ih =>
    intro acc
    by_cases h16 : n < 16
    · rw [hexChars_eq, if_pos h16]
      show (match parseHexDigit (hexDigitChar n) with
        | some d => parseHexGroupAux [] (16 * acc + d)
        | none => none) = _
      rw [parseHexDigit_hexDigitChar h16]
      show some (16 * acc + n) = some (acc * 16 ^ 1 + n)
      norm_num
      ring_nf
    · conv_lhs => rw [hexChars_eq, if_neg h16]
      rw [parseHexGroupAux_append, ih (n / 16) (by omega) acc,
        parseHexDigit_hexDigitChar (by omega : n % 16 < 16)]
      show some (16 * (acc * 16 ^ (hexChars (n / 16)).length + n / 16) + n % 16) = _
      have hlen : (hexChars n).length = (hexChars (n / 16)).length + 1 := by
        conv_lhs => rw [hexChars_eq, if_neg h16]
        simp
      rw [hlen]
      have h1 : 16 * (n / 16) + n % 16 = n := by omega
      have : 16 * (acc * 16 ^ (hexChars (n / 16)).length + n / 16) + n % 16 =
          acc * (16 ^ (hexChars (n / 16)).length * 16) +
            (16 * (n / 16) + n % 16) := by ring
      rw [this, h1, pow_succ]

theorem parseHexGroup_hexChars {n : Nat} (h : n ≤ 65535) :
    parseHexGroup (hexChars n) = some n := by
  unfold parseHexGroup
  rw [if_neg (by
    push_neg
    exact ⟨fun h0 => hexChars_ne_nil n (List.eq_nil_of_length_eq_zero h0),
      hexChars_length_le n 4 (by omega) (by omega)⟩)]
  rw [parseHexGroupAux_hexChars n 0]
  simp

/-! ## Helper lemmas: intercalation and its splitting -/

theorem intercalateColon_cons (t : List Char) (ts : List (List Char))
    (h : ts ≠ []) :
    intercalateColon (t :: ts) = t ++ ':' :: intercalateColon ts := by
  obtain ⟨u, us, rfl⟩ := List.exists_cons_of_ne_nil h
  rfl

theorem mem_intercalateColon {c : Char} :
    ∀ ts : List (List Char), c ∈ intercalateColon ts →
      c = ':' ∨ ∃ t ∈ ts, c ∈ t := by
  intro ts
  induction ts with
  | nil => intro h; exact absurd h (by simp [intercalateColon])
  | cons t ts ih =>
    intro h
    cases ts with
    | nil => exact Or.inr ⟨t, by simp, h⟩
    | cons u us =>
      rw [intercalateColon_cons t (u :: us) (by simp)] at h
      rcases List.mem_append.1 h with h1 | h1
      · exact Or.inr ⟨t, by simp, h1⟩
      rcases List.mem_cons.1 h1 with rfl | h2
      · exact Or.inl rfl
      · rcases ih h2 with h3 | ⟨v, hv, hcv⟩
        · exact Or.inl h3
        · exact Or.inr ⟨v, by simp [hv], hcv⟩

theorem splitOnChar_intercalateColon :
    ∀ ts : List (List Char), ts ≠ [] → (∀ t ∈ ts, ':' ∉ t) →
      splitOnChar ':' (intercalateColon ts) = ts := by
  intro ts
  induction ts with
  | nil => intro h; exact absurd rfl h
  | cons t ts ih =>
    intro _ hcf
    cases ts with
    | nil => exact splitOnChar_not_mem (hcf t (by simp))
    | cons u us =>
      rw [intercalateColon_cons t (u :: us) (by simp),
        splitOnChar_append _ (hcf t (by simp)),
        ih (by simp) (fun x hx => hcf x (by simp [hx]))]

theorem splitOnChar_intercalateColon_append (r : List Char) :
    ∀ ts : List (List Char), ts ≠ [] → (∀ t ∈ ts, ':' ∉ t) →
      splitOnChar ':' (intercalateColon ts ++ ':' :: r) =
        ts ++ splitOnChar ':' r := by
  intro ts
  induction ts with
  | nil => intro h; exact absurd rfl h
  | cons t ts ih =>
    intro _ hcf
    cases ts with
    | nil => exact splitOnChar_append r (hcf t (by simp))
    | cons u us =>
      rw [intercalateColon_cons t (u :: us) (by simp), List.append_assoc,
        List.cons_append, splitOnChar_append _ (hcf t (by simp)),
        ih (by simp) (fun x hx => hcf x (by simp [hx]))]
      rfl

/-! ## Helper lemmas: zero runs and the best-run scan -/

theorem zeroRunLen_succ_head (n : Nat) (xs : List Nat) :
    zeroRunLen ((n + 1) :: xs) = 0 := rfl

theorem zeroRunLen_zero_head (xs : List Nat) :
    zeroRunLen (0 :: xs) = zeroRunLen xs + 1 := rfl

theorem zeroRunLen_le_length : ∀ l : List Nat, zeroRunLen l ≤ l.length := by
  intro l
  induction l with
  | nil => exact Nat.le_refl 0
  | cons x xs ih =>
    cases x with
    | zero =>
      rw [zeroRunLen_zero_head]
      simp only [List.length_cons]
      omega
    | succ k =>
      rw [zeroRunLen_succ_head]
      omega

theorem zeroRunLen_take : ∀ (l : List Nat) (k : Nat), k ≤ zeroRunLen l →
    l.take k = List.replicate k 0 := by
  intro l
  induction l with
  | nil =>
    intro k hk
    have hk0 : k = 0 := by
      have : zeroRunLen ([] : List Nat) = 0 := rfl
      omega
    subst hk0
    rfl
  | cons x xs ih =>
    intro k hk
    cases x with
    | zero =>
      cases k with
      | zero => rfl
      | succ k' =>
        rw [zeroRunLen_zero_head] at hk
        show 0 :: xs.take k' = 0 :: List.replicate k' 0
        rw [ih k' (by omega)]
    | succ n =>
      rw [zeroRunLen_succ_head] at hk
      have hk0 : k = 0 := by omega
      subst hk0
      rfl

theorem bestRunAux_spec (gs : List Nat) :
    ∀ (ws : List Nat) (i : Nat) (best : Nat × Nat),
      ws = gs.drop i →
      (best = (0, 0) ∨ best.2 ≤ zeroRunLen (gs.drop best.1)) →
      (bestRunAux i ws best = (0, 0) ∨
        (bestRunAux i ws best).2 ≤ zeroRunLen (gs.drop (bestRunAux i ws best).1)) := by
  intro ws
  induction ws with
  | nil => intro i best _ hbest; exact hbest
  | cons w rest ih =>
    intro i best hws hbest
    show (bestRunAux (i + 1) rest
        (if best.2 < zeroRunLen (w :: rest) then (i, zeroRunLen (w :: rest))
         else best) = (0, 0) ∨ _)
    have hrest : rest = gs.drop (i + 1) := by
      have h1 : (gs.drop i).drop 1 = gs.drop (i + 1) := List.drop_drop 1 i gs
      rw [← hws] at h1
      exact h1
    refine ih (i + 1) _ hrest ?_
    split_ifs with hpick
    · refine Or.inr ?_
      show zeroRunLen (w :: rest) ≤ zeroRunLen (gs.drop i)
      rw [← hws]
    · exact hbest

theorem bestRun_spec (gs : List Nat) :
    bestRun gs = (0, 0) ∨ (bestRun gs).2 ≤ zeroRunLen (gs.drop (bestRun gs).1) :=
  bestRunAux_spec gs gs 0 (0, 0) (List.drop_zero gs).symm (Or.inl rfl)

/-! ## Helper lemmas: gap analysis of colon-split token lists -/

theorem noEmpty_of {ps : List (List Char)} (h : ∀ t ∈ ps, t ≠ []) :
    noEmpty ps = true :=
  List.all_eq_true.2 (fun t ht => by simp [List.isEmpty_eq_false.2 (h t ht)])

theorem splitGapAux_cons_empty (acc rest : List (List Char)) :
    splitGapAux acc ([] :: rest) =
      (if rest = [[]] then some (acc.reverse, [])
       else if noEmpty rest = true ∧ rest ≠ [] then some (acc.reverse, rest)
       else none) := rfl

theorem splitGapAux_cons_ne (acc : List (List Char)) (p : List Char)
    (rest : List (List Char)) (h : p ≠ []) :
    splitGapAux acc (p :: rest) = splitGapAux (p :: acc) rest := by
  obtain ⟨c, cs, rfl⟩ := List.exists_cons_of_ne_nil h
  rfl

theorem splitGapAux_trailing :
    ∀ (ts acc : List (List Char)), (∀ t ∈ ts, t ≠ []) →
      splitGapAux acc (ts ++ [[], []]) = some (acc.reverse ++ ts, []) := by
  intro ts
  induction ts with
  | nil =>
    intro acc _
    rw [List.nil_append, splitGapAux_cons_empty, if_pos rfl]
    simp
  | cons t ts ih =>
    intro acc ht
    rw [List.cons_append, splitGapAux_cons_ne _ _ _ (ht t (by simp)),
      ih (t :: acc) (fun x hx => ht x (by simp [hx]))]
    simp

theorem splitGapAux_interior :
    ∀ (ts acc rs : List (List Char)), (∀ t ∈ ts, t ≠ []) →
      (∀ t ∈ rs, t ≠ []) → rs ≠ [] →
      splitGapAux acc (ts ++ [] :: rs) = some (acc.reverse ++ ts, rs) := by
  intro ts
  induction ts with
  | nil =>
    intro acc rs hrs hrs' hrs_ne
    rw [List.nil_append, splitGapAux_cons_empty,
      if_neg (fun he => hrs' [] (by rw [he]; simp) rfl),
      if_pos ⟨noEmpty_of hrs', hrs_ne⟩]
    simp
  | cons t ts ih =>
    intro acc rs hts hrs hrs_ne
    rw [List.cons_append, splitGapAux_cons_ne _ _ _ (hts t (by simp)),
      ih (t :: acc) rs (fun x hx => hts x (by simp [hx])) hrs hrs_ne]
    simp

theorem ipv6_gap_split_noEmpty (ps : List (List Char)) (hps : ps ≠ [])
    (hne : ∀ t ∈ ps, t ≠ []) :
    ipv6_gap_split ps = some (ps, none) := by
  obtain ⟨t, ts, rfl⟩ := List.exists_cons_of_ne_nil hps
  obtain ⟨c, cs, hts⟩ := List.exists_cons_of_ne_nil (hne t (by simp))
  subst hts
  show (if noEmpty ((c :: cs) :: ts) = true then some ((c :: cs) :: ts, none)
    else (splitGapAux [] ((c :: cs) :: ts)).map (fun q => (q.1, some q.2))) =
    some ((c :: cs) :: ts, none)
  rw [if_pos (noEmpty_of hne)]

theorem ipv6_gap_split_gap (ts rs : List (List Char))
    (hts : ∀ t ∈ ts, t ≠ []) (hts_ne : ts ≠ [])
    (hrs : ∀ t ∈ rs, t ≠ []) (hrs_ne : rs ≠ []) :
    ipv6_gap_split (ts ++ [] :: rs) = some (ts, some rs) := by
  obtain ⟨t, ts', rfl⟩ := List.exists_cons_of_ne_nil hts_ne
  obtain ⟨c, cs, hts2⟩ := List.exists_cons_of_ne_nil (hts t (by simp))
  subst hts2
  show (if noEmpty (((c :: cs) :: ts') ++ [] :: rs) = true
      then some (((c :: cs) :: ts') ++ [] :: rs, none)
    else (splitGapAux [] (((c :: cs) :: ts') ++ [] :: rs)).map
      (fun q => (q.1, some q.2))) = some ((c :: cs) :: ts', some rs)
  rw [if_neg (by simp [noEmpty]),
    splitGapAux_interior ((c :: cs) :: ts') [] rs hts hrs hrs_ne]
  simp

theorem ipv6_gap_split_trailing (ts : List (List Char))
    (hts : ∀ t ∈ ts, t ≠ []) (hts_ne : ts ≠ []) :
    ipv6_gap_split (ts ++ [[], []]) = some (ts, some []) := by
  obtain ⟨t, ts', rfl⟩ := List.exists_cons_of_ne_nil hts_ne
  obtain ⟨c, cs, hts2⟩ := List.exists_cons_of_ne_nil (hts t (by simp))
  subst hts2
  show (if noEmpty (((c :: cs) :: ts') ++ [[], []]) = true
      then some (((c :: cs) :: ts') ++ [[], []], none)
    else (splitGapAux [] (((c :: cs) :: ts') ++ [[], []])).map
      (fun q => (q.1, some q.2))) = some ((c :: cs) :: ts', some [])
  rw [if_neg (by simp [noEmpty]),
    splitGapAux_trailing ((c :: cs) :: ts') [] hts]
  simp

theorem ipv6_gap_split_leading (rs : List (List Char))
    (hrs : ∀ t ∈ rs, t ≠ []) (hrs_ne : rs ≠ []) :
    ipv6_gap_split ([] :: [] :: rs) = some ([], some rs) := by
  show (if rs = [[]] then some ([], some [])
    else if noEmpty rs = true ∧ rs ≠ [] then some ([], some rs) else none) =
    some ([], some rs)
  rw [if_neg (fun he => hrs [] (by rw [he]; simp) rfl),
    if_pos ⟨noEmpty_of hrs, hrs_ne⟩]

/-! ## Helper lemmas: parsing mapped hex token lists -/

theorem parseGroupTokens_map (gs : List Nat) (hg : ∀ g ∈ gs, g ≤ 65535) :
    parseGroupTokens (gs.map hexChars) = some gs := by
  induction gs with
  | nil => rfl
  | cons g gs ih =>
    show (match parseHexGroup (hexChars g), parseGroupTokens (gs.map hexChars) with
      | some x, some xs => some (x :: xs)
      | _, _ => none) = some (g :: gs)
    rw [parseHexGroup_hexChars (hg g (by simp)),
      ih (fun x hx => hg x (by simp [hx]))]

theorem parseGroupTokensLast_map (gs : List Nat) (hg : ∀ g ∈ gs, g ≤ 65535) :
    parseGroupTokensLast (gs.map hexChars) = some gs := by
  induction gs with
  | nil => rfl
  | cons g gs ih =>
    cases gs with
    | nil =>
      show (if '.' ∈ hexChars g
        then (parseQuad (hexChars g)).map (fun q => [q.1, q.2])
        else (parseHexGroup (hexChars g)).map (fun x => [x])) = some [g]
      rw [if_neg (not_dot_mem_hexChars g),
        parseHexGroup_hexChars (hg g (by simp))]
      rfl
    | cons g2 gs2 =>
      show (match parseHexGroup (hexChars g),
          parseGroupTokensLast ((g2 :: gs2).map hexChars) with
        | some x, some xs => some (x :: xs)
        | _, _ => none) = some (g :: g2 :: gs2)
      rw [parseHexGroup_hexChars (hg g (by simp)),
        ih (fun x hx => hg x (by simp [hx]))]

/-! ## Helper lemmas: `from_string` on the IPv4-compatible text -/

theorem ipv6_from_chars_compat {a b c d : Nat}
    (ha : a ≤ 255) (hb : b ≤ 255) (hc : c ≤ 255) (hd : d ≤ 255) :
    ipv6_from_chars (':' :: ':' :: ipv4PartChars a b c d) =
      some [0, 0, 0, 0, 0, 0, 0, 0, 0, 0, 0, 0, a, b, c, d] := by
  have hqne := ipv4PartChars_ne_nil a b c d
  have hsplit : splitOnChar ':' (':' :: ':' :: ipv4PartChars a b c d) =
      [[], [], ipv4PartChars a b c d] := by
    rw [splitOnChar, if_pos rfl, splitOnChar, if_pos rfl,
      splitOnChar_not_mem (not_mem_ipv4PartChars a b c d (by decide))]
  unfold ipv6_from_chars
  rw [hsplit, ipv6_gap_split_leading [ipv4PartChars a b c d]
    (by simpa using hqne) (by simp)]
  have hlast : parseGroupTokensLast [ipv4PartChars a b c d] =
      some [256 * a + b, 256 * c + d] := by
    show (if '.' ∈ ipv4PartChars a b c d
      then (parseQuad (ipv4PartChars a b c d)).map (fun q => [q.1, q.2])
      else (parseHexGroup (ipv4PartChars a b c d)).map (fun g => [g])) = _
    rw [if_pos (dot_mem_ipv4PartChars a b c d),
      parseQuad_ipv4PartChars ha hb hc hd]
    rfl
  show (match parseGroupTokens [], parseGroupTokensLast [ipv4PartChars a b c d] with
    | some gl, some gr =>
      if gl.length + gr.length ≤ 7 then
        some (groupsToBytes
          (gl ++ List.replicate (8 - (gl.length + gr.length)) 0 ++ gr))
      else none
    | _, _ => none) = some [0, 0, 0, 0, 0, 0, 0, 0, 0, 0, 0, 0, a, b, c, d]
  rw [hlast]
  show (if (0 : Nat) + 2 ≤ 7 then
      some (groupsToBytes ([] ++ List.replicate (8 - (0 + 2)) 0 ++
        [256 * a + b, 256 * c + d]))
    else none) = some [0, 0, 0, 0, 0, 0, 0, 0, 0, 0, 0, 0, a, b, c, d]
  rw [if_pos (by omega)]
  show some (groupsToBytes [0, 0, 0, 0, 0, 0, 256 * a + b, 256 * c + d]) =
    some [0, 0, 0, 0, 0, 0, 0, 0, 0, 0, 0, 0, a, b, c, d]
  unfold groupsToBytes
  simp only [List.foldr_cons, List.foldr_nil]
  rw [group_hi hb, group_lo hb, group_hi hd, group_lo hd]

/-! ## Helper lemmas: bytes to groups and back -/

theorem bytesToGroups_sixteen
    (b0 b1 b2 b3 b4 b5 b6 b7 b8 b9 b10 b11 b12 b13 b14 b15 : Nat) :
    bytesToGroups [b0, b1, b2, b3, b4, b5, b6, b7, b8, b9, b10, b11, b12, b13,
      b14, b15] =
      [256 * b0 + b1, 256 * b2 + b3, 256 * b4 + b5, 256 * b6 + b7,
       256 * b8 + b9, 256 * b10 + b11, 256 * b12 + b13, 256 * b14 + b15] := rfl

theorem groupsToBytes_bytesToGroups16
    (b0 b1 b2 b3 b4 b5 b6 b7 b8 b9 b10 b11 b12 b13 b14 b15 : Nat)
    (hb : ∀ x ∈ [b0, b1, b2, b3, b4, b5, b6, b7, b8, b9, b10, b11, b12, b13,
      b14, b15], x ≤ 255) :
    groupsToBytes (bytesToGroups [b0, b1, b2, b3, b4, b5, b6, b7, b8, b9, b10,
      b11, b12, b13, b14, b15]) =
      [b0, b1, b2, b3, b4, b5, b6, b7, b8, b9, b10, b11, b12, b13, b14, b15] := by
  simp only [List.forall_mem_cons] at hb
  obtain ⟨h0, h1, h2, h3, h4, h5, h6, h7, h8, h9, h10, h11, h12, h13, h14, h15,
    -⟩ := hb
  rw [bytesToGroups_sixteen]
  unfold groupsToBytes
  simp only [List.foldr_cons, List.foldr_nil]
  rw [group_hi h1, group_lo h1, group_hi h3, group_lo h3, group_hi h5,
    group_lo h5, group_hi h7, group_lo h7, group_hi h9, group_lo h9,
    group_hi h11, group_lo h11, group_hi h13, group_lo h13, group_hi h15,
    group_lo h15]

theorem bytesToGroups_sixteen_bound
    (b0 b1 b2 b3 b4 b5 b6 b7 b8 b9 b10 b11 b12 b13 b14 b15 : Nat)
    (hb : ∀ x ∈ [b0, b1, b2, b3, b4, b5, b6, b7, b8, b9, b10, b11, b12, b13,
      b14, b15], x ≤ 255) :
    ∀ g ∈ bytesToGroups [b0, b1, b2, b3, b4, b5, b6, b7, b8, b9, b10, b11, b12,
      b13, b14, b15], g ≤ 65535 := by
  simp only [List.forall_mem_cons] at hb
  obtain ⟨h0, h1, h2, h3, h4, h5, h6, h7, h8, h9, h10, h11, h12, h13, h14, h15,
    -⟩ := hb
  rw [bytesToGroups_sixteen]
  intro g hg
  simp only [List.mem_cons, List.not_mem_nil, or_false] at hg
  rcases hg with rfl | rfl | rfl | rfl | rfl | rfl | rfl | rfl <;> omega

/-! ## Helper lemmas: `inet_pton` inverts the general `inet_ntop` printer -/

theorem map_hex_ne_nil {gs : List Nat} : ∀ t ∈ gs.map hexChars, t ≠ [] := by
  intro t ht
  obtain ⟨g, _, rfl⟩ := List.mem_map.1 ht
  exact hexChars_ne_nil g

theorem map_hex_colon_free {gs : List Nat} : ∀ t ∈ gs.map hexChars, ':' ∉ t := by
  intro t ht
  obtain ⟨g, _, rfl⟩ := List.mem_map.1 ht
  exact not_colon_mem_hexChars g

theorem general_roundtrip (gs : List Nat) (h8 : gs.length = 8)
    (hg : ∀ g ∈ gs, g ≤ 65535) :
    ipv6_from_chars (generalV6Chars gs) = some (groupsToBytes gs) := by
  have hgs_ne : gs ≠ [] := by intro he; subst he; simp at h8
  rcases hbr : bestRun gs with ⟨base, len⟩
  simp only [generalV6Chars, hbr]
  by_cases hless : len < 2
  · rw [if_pos hless]
    unfold ipv6_from_chars
    rw [splitOnChar_intercalateColon (gs.map hexChars) (by simp [hgs_ne])
        map_hex_colon_free,
      ipv6_gap_split_noEmpty (gs.map hexChars) (by simp [hgs_ne]) map_hex_ne_nil]
    show (match parseGroupTokensLast (gs.map hexChars) with
      | some gsr => if gsr.length = 8 then some (groupsToBytes gsr) else none
      | none => none) = some (groupsToBytes gs)
    rw [parseGroupTokensLast_map gs hg]
    show (if gs.length = 8 then some (groupsToBytes gs) else none) =
      some (groupsToBytes gs)
    rw [if_pos h8]
  · rw [if_neg hless]
    have hlen2 : 2 ≤ len := by omega
    have hzero : len ≤ zeroRunLen (gs.drop base) := by
      rcases bestRun_spec gs with h | h
      · rw [hbr] at h
        have : len = 0 := congrArg Prod.snd h
        omega
      · rw [hbr] at h
        exact h
    have hbl : base + len ≤ 8 := by
      have h1 := zeroRunLen_le_length (gs.drop base)
      rw [List.length_drop, h8] at h1
      omega
    have hdecomp : gs = gs.take base ++ (List.replicate len 0 ++
        gs.drop (base + len)) := by
      conv_lhs => rw [← List.take_append_drop base gs]
      congr 1
      conv_lhs => rw [← List.take_append_drop len (gs.drop base)]
      rw [zeroRunLen_take (gs.drop base) len hzero, List.drop_drop]
    have hpre_len : (gs.take base).length = base := by
      rw [List.length_take]
      omega
    have hpost_len : (gs.drop (base + len)).length = 8 - (base + len) := by
      rw [List.length_drop, h8]
    have hpre_g : ∀ g ∈ gs.take base, g ≤ 65535 :=
      fun g hgm => hg g (List.take_subset base gs hgm)
    have hpost_g : ∀ g ∈ gs.drop (base + len), g ≤ 65535 :=
      fun g hgm => hg g (List.drop_subset (base + len) gs hgm)
    rcases hpree : gs.take base with _ | ⟨p0, pre'⟩
    · -- no groups before the gap
      have hbase0 : base = 0 := by
        rw [hpree] at hpre_len
        simpa using hpre_len.symm
      rcases hposte : gs.drop (base + len) with _ | ⟨q0, post'⟩
      · -- "::" alone: the address is all zeros
        have hlen8 : len = 8 := by
          rw [hpree, hposte] at hdecomp
          have := congrArg List.length hdecomp
          simp at this
          omega
        have hgs : gs = List.replicate 8 0 := by
          rw [hpree, hposte] at hdecomp
          simpa [hlen8] using hdecomp
        rw [hgs]
        rfl
      · -- "::post"
        simp only [List.map_nil, intercalateColon, List.nil_append]
        unfold ipv6_from_chars
        rw [splitOnChar, if_pos rfl, splitOnChar, if_pos rfl,
          splitOnChar_intercalateColon ((q0 :: post').map hexChars) (by simp)
            map_hex_colon_free,
          ipv6_gap_split_leading ((q0 :: post').map hexChars) map_hex_ne_nil
            (by simp)]
        show (match parseGroupTokens ([] : List (List Char)),
            parseGroupTokensLast ((q0 :: post').map hexChars) with
          | some gl, some gr =>
            if gl.length + gr.length ≤ 7 then
              some (groupsToBytes
                (gl ++ List.replicate (8 - (gl.length + gr.length)) 0 ++ gr))
            else none
          | _, _ => none) = some (groupsToBytes gs)
        rw [parseGroupTokensLast_map (q0 :: post') (hposte ▸ hpost_g)]
        show (if (0 : Nat) + (q0 :: post').length ≤ 7 then
            some (groupsToBytes ([] ++
              List.replicate (8 - (0 + (q0 :: post').length)) 0 ++
              (q0 :: post')))
          else none) = some (groupsToBytes gs)
        have hplen : (q0 :: post').length = 8 - len := by
          rw [← hposte, hpost_len, hbase0]
          omega
        rw [if_pos (by omega)]
        congr 1
        congr 1
        rw [List.nil_append, hplen, show 0 + (8 - len) = 8 - len from by omega,
          show 8 - (8 - len) = len from by omega]
        rw [hpree, hposte] at hdecomp
        rw [hdecomp]
        simp
    · -- groups before the gap
      rcases hposte : gs.drop (base + len) with _ | ⟨q0, post'⟩
      · -- "pre::"
        have hsum : base + len = 8 := by
          rw [hposte] at hpost_len
          simp at hpost_len
          omega
        simp only [List.map_nil, intercalateColon]
        unfold ipv6_from_chars
        rw [splitOnChar_intercalateColon_append _ ((p0 :: pre').map hexChars)
            (by simp) map_hex_colon_free,
          show splitOnChar ':' (':' :: ([] : List Char)) = [[], []] from rfl,
          ipv6_gap_split_trailing ((p0 :: pre').map hexChars) map_hex_ne_nil
            (by simp)]
        show (match parseGroupTokens ((p0 :: pre').map hexChars),
            parseGroupTokensLast ([] : List (List Char)) with
          | some gl, some gr =>
            if gl.length + gr.length ≤ 7 then
              some (groupsToBytes
                (gl ++ List.replicate (8 - (gl.length + gr.length)) 0 ++ gr))
            else none
          | _, _ => none) = some (groupsToBytes gs)
        rw [parseGroupTokens_map (p0 :: pre') (hpree ▸ hpre_g)]
        show (if (p0 :: pre').length + 0 ≤ 7 then
            some (groupsToBytes ((p0 :: pre') ++
              List.replicate (8 - ((p0 :: pre').length + 0)) 0 ++ []))
          else none) = some (groupsToBytes gs)
        have hplen : (p0 :: pre').length = base := by rw [← hpree, hpre_len]
        rw [if_pos (by omega)]
        congr 1
        congr 1
        rw [List.append_nil, hplen, show base + 0 = base from by omega,
          show 8 - base = len from by omega]
        rw [hpree, hposte] at hdecomp
        rw [hdecomp]
        simp
      · -- "pre::post"
        unfold ipv6_from_chars
        rw [splitOnChar_intercalateColon_append _ ((p0 :: pre').map hexChars)
            (by simp) map_hex_colon_free,
          splitOnChar, if_pos rfl,
          splitOnChar_intercalateColon ((q0 :: post').map hexChars) (by simp)
            map_hex_colon_free,
          ipv6_gap_split_gap ((p0 :: pre').map hexChars)
            ((q0 :: post').map hexChars) map_hex_ne_nil (by simp)
            map_hex_ne_nil (by simp)]
        show (match parseGroupTokens ((p0 :: pre').map hexChars),
            parseGroupTokensLast ((q0 :: post').map hexChars) with
          | some gl, some gr =>
            if gl.length + gr.length ≤ 7 then
              some (groupsToBytes
                (gl ++ List.replicate (8 - (gl.length + gr.length)) 0 ++ gr))
            else none
          | _, _ => none) = some (groupsToBytes gs)
        rw [parseGroupTokens_map (p0 :: pre') (hpree ▸ hpre_g),
          parseGroupTokensLast_map (q0 :: post') (hposte ▸ hpost_g)]
        have hplen : (p0 :: pre').length = base := by rw [← hpree, hpre_len]
        have hqlen : (q0 :: post').length = 8 - (base + len) := by
          rw [← hposte, hpost_len]
        show (if (p0 :: pre').length + (q0 :: post').length ≤ 7 then
            some (groupsToBytes ((p0 :: pre') ++
              List.replicate
                (8 - ((p0 :: pre').length + (q0 :: post').length)) 0 ++
              (q0 :: post')))
          else none) = some (groupsToBytes gs)
        rw [if_pos (by omega)]
        congr 1
        congr 1
        rw [hplen, hqlen,
          show 8 - (base + (8 - (base + len))) = len from by omega]
        rw [hpree, hposte] at hdecomp
        rw [hdecomp]
        simp

/-! ## Helper lemmas: the full `from_string` / `to_string` round trip -/

theorem ipv6_round_trip_16
    (b0 b1 b2 b3 b4 b5 b6 b7 b8 b9 b10 b11 b12 b13 b14 b15 : Nat)
    (hb : ∀ x ∈ [b0, b1, b2, b3, b4, b5, b6, b7, b8, b9, b10, b11, b12, b13,
      b14, b15], x ≤ 255) :
    ipv6_from_chars (ipv6_to_chars [b0, b1, b2, b3, b4, b5, b6, b7, b8, b9,
      b10, b11, b12, b13, b14, b15]) =
      some [b0, b1, b2, b3, b4, b5, b6, b7, b8, b9, b10, b11, b12, b13, b14,
        b15] := by
  have hb' := hb
  simp only [List.forall_mem_cons] at hb'
  obtain ⟨h0, h1, h2, h3, h4, h5, h6, h7, h8, h9, h10, h11, h12, h13, h14, h15,
    -⟩ := hb'
  simp only [ipv6_to_chars]
  split_ifs with hmapped hcompat
  · obtain ⟨e0, e1, e2, e3, e4, e5, e6, e7, e8, e9, e10, e11⟩ := hmapped
    subst e0 e1 e2 e3 e4 e5 e6 e7 e8 e9 e10 e11
    exact ipv6_from_chars_mapped h12 h13 h14 h15
  · obtain ⟨e0, e1, e2, e3, e4, e5, e6, e7, e8, e9, e10, e11, -⟩ := hcompat
    subst e0 e1 e2 e3 e4 e5 e6 e7 e8 e9 e10 e11
    exact ipv6_from_chars_compat h12 h13 h14 h15
  · rw [general_roundtrip
        (bytesToGroups [b0, b1, b2, b3, b4, b5, b6, b7, b8, b9, b10, b11, b12,
          b13, b14, b15])
        (by rw [bytesToGroups_sixteen]; rfl)
        (bytesToGroups_sixteen_bound b0 b1 b2 b3 b4 b5 b6 b7 b8 b9 b10 b11 b12
          b13 b14 b15 hb),
      groupsToBytes_bytesToGroups16 b0 b1 b2 b3 b4 b5 b6 b7 b8 b9 b10 b11 b12
        b13 b14 b15 hb]

/-! ## Helper lemmas: every printed address character is in the v6 class -/

theorem isV6Char_of_isHostChar {c : Char} (h : isHostChar c = true) :
    isV6Char c = true := by
  simp only [isHostChar, isDigitChar, Bool.or_eq_true, Bool.and_eq_true,
    decide_eq_true_eq] at h
  simp only [isV6Char, isDigitChar, Bool.or_eq_true, Bool.and_eq_true,
    decide_eq_true_eq]
  omega

theorem mem_generalV6Chars {c : Char} (gs : List Nat)
    (h : c ∈ generalV6Chars gs) : isV6Char c = true := by
  have hcolon : isV6Char ':' = true := by decide
  have hinter : ∀ ts : List Nat,
      c ∈ intercalateColon (ts.map hexChars) → isV6Char c = true := by
    intro ts hc
    rcases mem_intercalateColon _ hc with rfl | ⟨t, ht, hct⟩
    · exact hcolon
    · obtain ⟨g, _, rfl⟩ := List.mem_map.1 ht
      exact isV6Char_of_range (hexChars_range g c hct)
  rcases hbr : bestRun gs with ⟨base, len⟩
  simp only [generalV6Chars, hbr] at h
  by_cases hless : len < 2
  · rw [if_pos hless] at h
    exact hinter gs h
  · rw [if_neg hless] at h
    rcases List.mem_append.1 h with h1 | h1
    · exact hinter _ h1
    rcases List.mem_cons.1 h1 with rfl | h2
    · exact hcolon
    rcases List.mem_cons.1 h2 with rfl | h3
    · exact hcolon
    · exact hinter _ h3

theorem ipv6_to_chars_sixteen_v6
    (b0 b1 b2 b3 b4 b5 b6 b7 b8 b9 b10 b11 b12 b13 b14 b15 : Nat) :
    ∀ c ∈ ipv6_to_chars [b0, b1, b2, b3, b4, b5, b6, b7, b8, b9, b10, b11, b12,
      b13, b14, b15], isV6Char c = true := by
  intro c hc
  simp only [ipv6_to_chars] at hc
  split_ifs at hc
  · simp only [List.mem_cons] at hc
    rcases hc with rfl | rfl | rfl | rfl | rfl | rfl | rfl | hq
    · decide
    · decide
    · decide
    · decide
    · decide
    · decide
    · decide
    · exact isV6Char_of_isHostChar (mem_ipv4PartChars hq)
  · simp only [List.mem_cons] at hc
    rcases hc with rfl | rfl | hq
    · decide
    · decide
    · exact isV6Char_of_isHostChar (mem_ipv4PartChars hq)
  · exact mem_generalV6Chars _ hc

theorem intercalateColon_ne_nil (t : List Char) (ts : List (List Char))
    (ht : t ≠ []) : intercalateColon (t :: ts) ≠ [] := by
  cases ts with
  | nil => exact ht
  | cons u us =>
    rw [intercalateColon_cons t (u :: us) (by simp)]
    simp [ht]

theorem ipv6_to_chars_sixteen_ne_nil
    (b0 b1 b2 b3 b4 b5 b6 b7 b8 b9 b10 b11 b12 b13 b14 b15 : Nat) :
    ipv6_to_chars [b0, b1, b2, b3, b4, b5, b6, b7, b8, b9, b10, b11, b12, b13,
      b14, b15] ≠ [] := by
  simp only [ipv6_to_chars]
  split_ifs
  · simp
  · simp
  · rcases hbr : bestRun (bytesToGroups [b0, b1, b2, b3, b4, b5, b6, b7, b8,
      b9, b10, b11, b12, b13, b14, b15]) with ⟨base, len⟩
    simp only [generalV6Chars, hbr]
    by_cases hless : len < 2
    · rw [if_pos hless, bytesToGroups_sixteen]
      simp only [List.map_cons]
      exact intercalateColon_ne_nil _ _ (hexChars_ne_nil _)
    · rw [if_neg hless]
      simp

/-! ## Helper lemmas: parsing bracketed hosts -/

theorem isV6Char_toNat_ge {c : Char} (h : isV6Char c = true) : 46 ≤ c.toNat := by
  simp only [isV6Char, isDigitChar, Bool.or_eq_true, Bool.and_eq_true,
    decide_eq_true_eq] at h
  omega

theorem regexMatchAt_bracket (t r : List Char)
    (ht : ∀ c ∈ t, isV6Char c = true) (htne : t ≠ []) :
    regexMatchAt ('[' :: (t ++ ']' :: r)) =
      some { host := [], bracket := t, portDigits := regexPortAt r } := by
  have htw : (t ++ ']' :: r).takeWhile isV6Char = t :=
    takeWhile_append_cons r ht (by decide)
  have hdw : (t ++ ']' :: r).dropWhile isV6Char = ']' :: r :=
    dropWhile_append_cons r ht (by decide)
  simp only [regexMatchAt]
  rw [if_neg (by decide), if_pos trivial, hdw]
  show (if ((t ++ ']' :: r).takeWhile isV6Char).isEmpty = true then none
    else some (AuthorityMatch.mk [] ((t ++ ']' :: r).takeWhile isV6Char)
      (regexPortAt r))) =
    some { host := [], bracket := t, portDigits := regexPortAt r }
  rw [htw, if_neg (by simp [List.isEmpty_eq_false.2 htne])]

theorem parse_chars_bracket_port (t : List Char) (ip : List Nat) (p : Nat)
    (ht : ∀ c ∈ t, isV6Char c = true) (htne : t ≠ [])
    (hip : ipv6_from_chars t = some ip) (hbig : p ≤ 9999999999) :
    parse_authority_chars ('[' :: (t ++ ']' :: ':' :: decimalChars p)) =
      (if p ≤ 65535 then some { ip_ := ip, port_ := p } else none) := by
  have hns : ∀ x ∈ '[' :: (t ++ ']' :: ':' :: decimalChars p),
      isSpaceChar x = false := by
    intro x hx
    rcases List.mem_cons.1 hx with rfl | hx1
    · decide
    rcases List.mem_append.1 hx1 with h1 | h1
    · exact isSpaceChar_eq_false (isV6Char_toNat_ge (ht x h1))
    rcases List.mem_cons.1 h1 with rfl | h2
    · decide
    rcases List.mem_cons.1 h2 with rfl | h3
    · decide
    · exact isSpaceChar_eq_false
        (by have := isDigitChar_toNat (decimalChars_all_digit p x h3); omega)
  have hpa : regexPortAt (':' :: decimalChars p) = decimalChars p := by
    show ((decimalChars p).takeWhile isDigitChar).take 10 = decimalChars p
    rw [takeWhile_all (decimalChars_all_digit p),
      List.take_of_length_le (decimalChars_length_le p 10 (by omega) (by omega))]
  unfold parse_authority_chars
  rw [firstToken_all_nonspace hns,
    regexSearch_of_matchAt (by simp) (regexMatchAt_bracket t _ ht htne)]
  show (match ipv6_from_chars (if t.isEmpty = true
      then ':' :: ':' :: 'f' :: 'f' :: 'f' :: 'f' :: ':' :: ([] : List Char)
      else t),
    lexical_cast_uint16 (regexPortAt (':' :: decimalChars p)) with
    | some ip2, some q => some (authority.mk ip2 q)
    | _, _ => none) = (if p ≤ 65535 then some { ip_ := ip, port_ := p } else none)
  rw [List.isEmpty_eq_false.2 htne, if_neg Bool.false_ne_true, hip, hpa,
    lexical_cast_uint16_decimalChars]
  by_cases hp : p ≤ 65535
  · rw [if_pos hp, if_pos hp]
  · rw [if_neg hp, if_neg hp]

theorem parse_chars_bracket_bare (t : List Char)
    (ht : ∀ c ∈ t, isV6Char c = true) (htne : t ≠ []) :
    parse_authority_chars ('[' :: (t ++ [']'])) = none := by
  have hns : ∀ x ∈ '[' :: (t ++ [']']), isSpaceChar x = false := by
    intro x hx
    rcases List.mem_cons.1 hx with rfl | hx1
    · decide
    rcases List.mem_append.1 hx1 with h1 | h1
    · exact isSpaceChar_eq_false (isV6Char_toNat_ge (ht x h1))
    · rcases List.mem_cons.1 h1 with rfl | h2
      · decide
      · exact absurd h2 (by simp)
  unfold parse_authority_chars
  rw [firstToken_all_nonspace hns,
    regexSearch_of_matchAt (by simp) (regexMatchAt_bracket t [] ht htne)]
  show (match ipv6_from_chars (if t.isEmpty = true
      then ':' :: ':' :: 'f' :: 'f' :: 'f' :: 'f' :: ':' :: ([] : List Char)
      else t),
    lexical_cast_uint16 (regexPortAt ([] : List Char)) with
    | some ip2, some q => some (authority.mk ip2 q)
    | _, _ => none) = none
  rw [List.isEmpty_eq_false.2 htne, if_neg Bool.false_ne_true]
  cases ipv6_from_chars t
  · rfl
  · rfl

/-! ## Helper lemmas: strings the regex never matches -/

theorem regexMatchAt_none {c : Char} (cs : List Char)
    (h1 : isHostChar c = false) (h2 : c ≠ '[') :
    regexMatchAt (c :: cs) = none := by
  simp only [regexMatchAt]
  rw [if_neg (by simp [h1]), if_neg h2]

theorem regexSearch_append (l r : List Char)
    (h : ∀ c ∈ l, isHostChar c = false ∧ c ≠ '[') :
    regexSearch (l ++ r) = regexSearch r := by
  induction l with
  | nil => rfl
  | cons c cs ih =>
    rw [List.cons_append]
    show (match regexMatchAt (c :: (cs ++ r)) with
      | some m => some m
      | none => regexSearch (cs ++ r)) = regexSearch r
    rw [regexMatchAt_none _ (h c (by simp)).1 (h c (by simp)).2]
    exact ih (fun x hx => h x (by simp [hx]))

theorem regexSearch_none (l : List Char)
    (h : ∀ c ∈ l, isHostChar c = false ∧ c ≠ '[') :
    regexSearch l = none := by
  have happ := regexSearch_append l [] h
  rw [List.append_nil] at happ
  rw [happ]
  rfl

theorem parse_chars_no_match (s : List Char)
    (h : ∀ c ∈ s, isHostChar c = false ∧ c ≠ '[') :
    parse_authority_chars s = none := by
  have hsub : ∀ c ∈ firstToken s, isHostChar c = false ∧ c ≠ '[' := by
    intro c hc
    refine h c ?_
    unfold firstToken at hc
    exact (List.dropWhile_sublist isSpaceChar).subset
      ((List.takeWhile_sublist _).subset hc)
  unfold parse_authority_chars
  rw [regexSearch_none (firstToken s) hsub]

theorem parse_chars_prefix_transparent (l r : List Char)
    (hl : ∀ c ∈ l, isSpaceChar c = false ∧ isHostChar c = false ∧ c ≠ '[')
    (hr : ∀ c ∈ r, isSpaceChar c = false) :
    parse_authority_chars (l ++ r) = parse_authority_chars r := by
  have hns : ∀ c ∈ l ++ r, isSpaceChar c = false := by
    intro c hc
    rcases List.mem_append.1 hc with h1 | h1
    · exact (hl c h1).1
    · exact hr c h1
  unfold parse_authority_chars
  rw [firstToken_all_nonspace hns, firstToken_all_nonspace hr,
    regexSearch_append l r (fun c hc => ⟨(hl c hc).2.1, (hl c hc).2.2⟩)]

/-! ## Helper lemmas: formatting a cleanly-printed (bracketed) authority -/

theorem to_hostname_chars_clean (bs : List Nat) (p : Nat)
    (hclean : ipv4HostnameSearch (ipv6_to_chars bs) = []) :
    authority.to_hostname_chars { ip_ := bs, port_ := p } =
      '[' :: (ipv6_to_chars bs ++ [']']) := by
  simp [authority.to_hostname_chars, hclean]

theorem to_string_clean_data (bs : List Nat) (p : Nat) (hp : 0 < p)
    (hclean : ipv4HostnameSearch (ipv6_to_chars bs) = []) :
    (authority.to_string { ip_ := bs, port_ := p }).data =
      '[' :: (ipv6_to_chars bs ++ ']' :: ':' :: decimalChars p) := by
  unfold authority.to_string
  rw [to_hostname_chars_clean bs p hclean]
  show to_authority_chars ('[' :: (ipv6_to_chars bs ++ [']'])) p = _
  unfold to_authority_chars to_hostname_static
  rw [if_pos (Or.inr (by simp)), if_pos hp]
  simp

/-! ## Claim theorems: authority parsing and formatting -/

/-- C3 counterexample: two authorities whose round-trip fails. The
authority `::ffff:1.2.3.4` with port 0 formats as `"1.2.3.4"` (the port is
omitted for port 0) and parsing that string fails (`lexical_cast` on the
absent port capture throws). The non-mapped authority
`2001:db8::ffff:102:304` port 8333 formats as `"102:8333"` (the
`to_ipv4_hostname` regex search fires on the `::ffff:` embedded mid-text
and returns the spurious capture `102`), and that string parses — via the
`::ffff:` prepending of `to_ipv6` — to a different authority, the mapped
`::ffff:0.0.1.2`. So `parse(format(A))` does not round-trip for every
authority as claimed. -/
theorem C3_counterexample :
    (authority.to_string { ip_ := mappedBytes 1 2 3 4, port_ := 0 } =
        "1.2.3.4" ∧
      parse_authority "1.2.3.4" = none) ∧
    (authority.to_string
        { ip_ := [32, 1, 13, 184, 0, 0, 0, 0, 0, 0, 255, 255, 1, 2, 3, 4],
          port_ := 8333 } = "102:8333" ∧
      parse_authority "102:8333" ≠
        some { ip_ := [32, 1, 13, 184, 0, 0, 0, 0, 0, 0, 255, 255, 1, 2, 3, 4],
               port_ := 8333 }) := by decide

/-- C3 amended: round-tripping holds for every authority with a nonzero
port whose printed address is not corrupted by `to_ipv4_hostname`: (1) for
every IPv4-mapped authority `(::ffff:a.b.c.d, p)` with `0 < p ≤ 65535`,
`parse(format(A)) = A`; (2) for every authority (arbitrary 16 address
bytes) with `0 < p ≤ 65535` whose `inet_ntop` text contains no `::ffff:`
match for the `to_ipv4_hostname` regex search, `parse(format(A)) = A` —
this covers all non-mapped IPv6 addresses such as `[2001:db8::1]:8333`; in
particular `parse("1.2.3.4:8333")` yields `::ffff:1.2.3.4` port 8333 and
re-formatting yields `"1.2.3.4:8333"`. (Excluded by counterexamples: port
0, whose text form omits the port and no longer parses; and non-mapped
addresses whose canonical text embeds `::ffff:` mid-string, which corrupts
`to_hostname`.) -/
theorem C3_amended :
    (∀ a b c d p : Nat, a ≤ 255 → b ≤ 255 → c ≤ 255 → d ≤ 255 →
      0 < p → p ≤ 65535 →
      parse_authority
          (authority.to_string { ip_ := mappedBytes a b c d, port_ := p }) =
        some { ip_ := mappedBytes a b c d, port_ := p }) ∧
    (∀ b0 b1 b2 b3 b4 b5 b6 b7 b8 b9 b10 b11 b12 b13 b14 b15 p : Nat,
      (∀ x ∈ [b0, b1, b2, b3, b4, b5, b6, b7, b8, b9, b10, b11, b12, b13,
        b14, b15], x ≤ 255) →
      0 < p → p ≤ 65535 →
      ipv4HostnameSearch (ipv6_to_chars [b0, b1, b2, b3, b4, b5, b6, b7, b8,
        b9, b10, b11, b12, b13, b14, b15]) = [] →
      parse_authority
          (authority.to_string
            { ip_ := [b0, b1, b2, b3, b4, b5, b6, b7, b8, b9, b10, b11, b12,
                b13, b14, b15],
              port_ := p }) =
        some { ip_ := [b0, b1, b2, b3, b4, b5, b6, b7, b8, b9, b10, b11, b12,
                 b13, b14, b15],
               port_ := p }) ∧
    parse_authority "1.2.3.4:8333" =
      some { ip_ := mappedBytes 1 2 3 4, port_ := 8333 } ∧
    authority.to_string { ip_ := mappedBytes 1 2 3 4, port_ := 8333 } =
      "1.2.3.4:8333" := by
  refine ⟨?_, ?_, by decide, by decide⟩
  · intro a b c d p ha hb hc hd hp0 hp
    show parse_authority_chars
      (authority.to_string { ip_ := mappedBytes a b c d, port_ := p }).data = _
    rw [to_string_mapped_data hp0, parse_chars_quad_port ha hb hc hd (by omega),
      if_pos hp]
  · intro b0 b1 b2 b3 b4 b5 b6 b7 b8 b9 b10 b11 b12 b13 b14 b15 p hb hp0 hp
      hclean
    show parse_authority_chars
      (authority.to_string
        { ip_ := [b0, b1, b2, b3, b4, b5, b6, b7, b8, b9, b10, b11, b12, b13,
            b14, b15],
          port_ := p }).data = _
    rw [to_string_clean_data _ p hp0 hclean,
      parse_chars_bracket_port _ _ p
        (ipv6_to_chars_sixteen_v6 b0 b1 b2 b3 b4 b5 b6 b7 b8 b9 b10 b11 b12
          b13 b14 b15)
        (ipv6_to_chars_sixteen_ne_nil b0 b1 b2 b3 b4 b5 b6 b7 b8 b9 b10 b11
          b12 b13 b14 b15)
        (ipv6_round_trip_16 b0 b1 b2 b3 b4 b5 b6 b7 b8 b9 b10 b11 b12 b13 b14
          b15 hb)
        (by omega),
      if_pos hp]

/-- C3 witness: the amended round-trip evaluated at `::ffff:10.20.30.40`
port 65535 (the mapped universal) and at `2001:db8::1` port 8333 (the
clean-text universal, the non-mapped address `[2001:db8::1]:8333`). -/
theorem C3_witness :
    parse_authority
        (authority.to_string { ip_ := mappedBytes 10 20 30 40, port_ := 65535 }) =
      some { ip_ := mappedBytes 10 20 30 40, port_ := 65535 } ∧
    parse_authority
        (authority.to_string
          { ip_ := [32, 1, 13, 184, 0, 0, 0, 0, 0, 0, 0, 0, 0, 0, 0, 1],
            port_ := 8333 }) =
      some { ip_ := [32, 1, 13, 184, 0, 0, 0, 0, 0, 0, 0, 0, 0, 0, 0, 1],
             port_ := 8333 } :=
  ⟨C3_amended.1 10 20 30 40 65535 (by decide) (by decide) (by decide)
      (by decide) (by decide) (by decide),
    C3_amended.2.1 32 1 13 184 0 0 0 0 0 0 0 0 0 0 0 1 8333 (by decide)
      (by decide) (by decide) (by decide)⟩

/-- C4 counterexample: the bare-host form `"1.2.3.4"` (no port) fails to
parse, refuting the claim that a missing port parses as port 0. -/
theorem C4_counterexample : parse_authority "1.2.3.4" = none := by decide

/-- C4 amended: parsing requires an explicit `:port`. (1) `host:port` with
a dotted-quad host and port ≤ 65535 succeeds; (2) the bare dotted-quad
`host` form fails with `InvalidAuthority`; (3) a dotted-quad `host:port`
whose port exceeds 65535 fails; (4) `[v6]:port` for every bracketed IPv6
text that `inet_pton` accepts succeeds when the port is ≤ 65535 and fails
when it exceeds 65535; (5) the bare bracketed `[v6]` form (no port) fails
for every such text; (6) every string all of whose characters can begin no
match (neither a host character nor `[`) fails; (7) the regex is searched,
not anchored: prepending unmatchable characters to a token does not change
the result, so a string merely containing a matching substring also parses
— the claim's "exactly" fails in that direction, as the concrete
`"x1.2.3.4:8333"` shows. -/
theorem C4_amended :
    (∀ a b c d p : Nat, a ≤ 255 → b ≤ 255 → c ≤ 255 → d ≤ 255 → p ≤ 65535 →
      parse_authority_chars (ipv4PartChars a b c d ++ ':' :: decimalChars p) =
        some { ip_ := mappedBytes a b c d, port_ := p }) ∧
    (∀ a b c d : Nat, a ≤ 255 → b ≤ 255 → c ≤ 255 → d ≤ 255 →
      parse_authority_chars (ipv4PartChars a b c d) = none) ∧
    (∀ a b c d p : Nat, a ≤ 255 → b ≤ 255 → c ≤ 255 → d ≤ 255 →
      65535 < p → p ≤ 9999999999 →
      parse_authority_chars (ipv4PartChars a b c d ++ ':' :: decimalChars p) =
        none) ∧
    (∀ (t : List Char) (ip : List Nat) (p : Nat),
      (∀ c ∈ t, isV6Char c = true) → t ≠ [] →
      ipv6_from_chars t = some ip → p ≤ 9999999999 →
      parse_authority_chars ('[' :: (t ++ ']' :: ':' :: decimalChars p)) =
        (if p ≤ 65535 then some { ip_ := ip, port_ := p } else none)) ∧
    (∀ t : List Char, (∀ c ∈ t, isV6Char c = true) → t ≠ [] →
      parse_authority_chars ('[' :: (t ++ [']'])) = none) ∧
    (∀ s : List Char, (∀ c ∈ s, isHostChar c = false ∧ c ≠ '[') →
      parse_authority_chars s = none) ∧
    (∀ l r : List Char,
      (∀ c ∈ l, isSpaceChar c = false ∧ isHostChar c = false ∧ c ≠ '[') →
      (∀ c ∈ r, isSpaceChar c = false) →
      parse_authority_chars (l ++ r) = parse_authority_chars r) ∧
    parse_authority "[2001:db8::1]:8333" =
      some { ip_ := [32, 1, 13, 184, 0, 0, 0, 0, 0, 0, 0, 0, 0, 0, 0, 1],
             port_ := 8333 } ∧
    parse_authority "[2001:db8::1]" = none ∧
    parse_authority "[2001:db8::1]:65536" = none ∧
    parse_authority "x1.2.3.4:8333" =
      some { ip_ := mappedBytes 1 2 3 4, port_ := 8333 } ∧
    parse_authority "no authority here" = none := by
  refine ⟨?_, ?_, ?_, parse_chars_bracket_port, parse_chars_bracket_bare,
    parse_chars_no_match, parse_chars_prefix_transparent, by decide,
    by decide, by decide, by decide, by decide⟩
  · intro a b c d p ha hb hc hd hp
    rw [parse_chars_quad_port ha hb hc hd (by omega), if_pos hp]
  · intro a b c d ha hb hc hd
    exact parse_chars_quad_noport ha hb hc hd
  · intro a b c d p ha hb hc hd hp hbig
    rw [parse_chars_quad_port ha hb hc hd hbig, if_neg (by omega)]

/-- C4 witness: the amended behaviors at `1.2.3.4:8333` (success),
`5.6.7.8` without port (failure), `1.2.3.4:70000` (port overflow failure),
`[::1]:8333` (bracketed success), `[::1]` without port (failure), `xy`
(pattern nowhere, failure), and the prefix-transparency instance
`x1.2.3.4:8333` parsing as `1.2.3.4:8333` does. -/
theorem C4_witness :
    parse_authority_chars (ipv4PartChars 1 2 3 4 ++ ':' :: decimalChars 8333) =
      some { ip_ := mappedBytes 1 2 3 4, port_ := 8333 } ∧
    parse_authority_chars (ipv4PartChars 5 6 7 8) = none ∧
    parse_authority_chars (ipv4PartChars 1 2 3 4 ++ ':' :: decimalChars 70000) =
      none ∧
    parse_authority_chars
        ('[' :: ([':', ':', '1'] ++ ']' :: ':' :: decimalChars 8333)) =
      (if 8333 ≤ 65535 then
        some { ip_ := [0, 0, 0, 0, 0, 0, 0, 0, 0, 0, 0, 0, 0, 0, 0, 1],
               port_ := 8333 }
       else none) ∧
    parse_authority_chars ('[' :: ([':', ':', '1'] ++ [']'])) = none ∧
    parse_authority_chars ['x', 'y'] = none ∧
    parse_authority_chars (['x'] ++ "1.2.3.4:8333".data) =
      parse_authority_chars "1.2.3.4:8333".data :=
  ⟨C4_amended.1 1 2 3 4 8333 (by decide) (by decide) (by decide) (by decide)
      (by decide),
   C4_amended.2.1 5 6 7 8 (by decide) (by decide) (by decide) (by decide),
   C4_amended.2.2.1 1 2 3 4 70000 (by decide) (by decide) (by decide)
     (by decide) (by decide) (by decide),
   C4_amended.2.2.2.1 [':', ':', '1']
     [0, 0, 0, 0, 0, 0, 0, 0, 0, 0, 0, 0, 0, 0, 0, 1] 8333 (by decide)
     (by decide) (by decide) (by decide),
   C4_amended.2.2.2.2.1 [':', ':', '1'] (by decide) (by decide),
   C4_amended.2.2.2.2.2.1 ['x', 'y'] (by decide),
   C4_amended.2.2.2.2.2.2.1 ['x'] "1.2.3.4:8333".data (by decide)
     (by decide)⟩

end BC
